import Mathlib

/-!
Verification development for the markdown-safe text-transformation pipeline of
the mkdocs-translate-plugin repository: code-fence protection/restoration,
notice insertion, structural-integrity checking, and backend dispatch.
Texts are modelled as `List Char` (one element per Unicode code point, as in
Python `str` indexing).
-/

set_option maxHeartbeats 1000000

/-- Drops `p` from the front of `s` when `p` is an initial segment of `s`. -/
def stripPfx : List Char → List Char → Option (List Char)
  | [], s => some s
  | _ :: _, [] => none
  | a :: p, b :: s => if a = b then stripPfx p s else none

/-- Initial-segment relation on character lists. -/
def IsPre (p s : List Char) : Prop := ∃ r, s = p ++ r

/-- Final-segment relation on character lists. -/
def IsSuf (q s : List Char) : Prop := ∃ r, s = r ++ q

theorem stripPfx_some_iff {p s r : List Char} :
    stripPfx p s = some r ↔ s = p ++ r := by
  induction p generalizing s with
  | nil => simp [stripPfx]
  | cons a p ih =>
    cases s with
    | nil => simp [stripPfx]
    | cons b s =>
      by_cases hab : a = b
      · subst hab
        simp [stripPfx, ih]
      · constructor
        · intro h
          simp [stripPfx, hab] at h
        · intro h
          simp only [List.cons_append, List.cons.injEq] at h
          exact absurd h.1.symm hab

theorem stripPfx_none_iff {p s : List Char} :
    stripPfx p s = none ↔ ¬ IsPre p s := by
  constructor
  · intro h ⟨r, hr⟩
    rw [stripPfx_some_iff.mpr hr] at h
    exact Option.some_ne_none r h
  · intro h
    cases hs : stripPfx p s with
    | none => rfl
    | some r => exact absurd ⟨r, stripPfx_some_iff.mp hs⟩ h

theorem stripPfx_self_append (p r : List Char) : stripPfx p (p ++ r) = some r :=
  stripPfx_some_iff.mpr rfl

theorem isPre_length_le {p s : List Char} (h : IsPre p s) : p.length ≤ s.length := by
  obtain ⟨r, hr⟩ := h
  subst hr
  simp

theorem isSuf_length_le {q s : List Char} (h : IsSuf q s) : q.length ≤ s.length := by
  obtain ⟨r, hr⟩ := h
  subst hr
  simp

theorem IsPre.trans {a b c : List Char} (h1 : IsPre a b) (h2 : IsPre b c) : IsPre a c := by
  obtain ⟨r1, hr1⟩ := h1
  obtain ⟨r2, hr2⟩ := h2
  exact ⟨r1 ++ r2, by simp [hr2, hr1]⟩

theorem isPre_mem {p s : List Char} (h : IsPre p s) {c : Char} (hc : c ∈ p) : c ∈ s := by
  obtain ⟨r, hr⟩ := h
  subst hr
  exact List.mem_append_left r hc

theorem isSuf_mem {q s : List Char} (h : IsSuf q s) {c : Char} (hc : c ∈ q) : c ∈ s := by
  obtain ⟨r, hr⟩ := h
  subst hr
  exact List.mem_append_right r hc

/-- When two decompositions of one list overlap, the shorter left part is an
initial segment of the longer one. -/
theorem takePre {x y a b : List Char} (h : x ++ y = a ++ b) (hl : a.length ≤ x.length) :
    IsPre a x := by
  induction a generalizing x with
  | nil => exact ⟨x, rfl⟩
  | cons c a ih =>
    cases x with
    | nil => simp at hl
    | cons d x =>
      simp only [List.cons_append, List.cons.injEq] at h
      obtain ⟨rfl, h2⟩ := h
      simp only [List.length_cons, Nat.succ_le_succ_iff] at hl
      obtain ⟨t, ht⟩ := ih h2 hl
      exact ⟨t, by simp [ht]⟩

theorem sufSplit {p x y : List Char} (h : IsSuf p (x ++ y)) :
    IsSuf p y ∨ ∃ u, IsSuf u x ∧ u ≠ [] ∧ p = u ++ y := by
  obtain ⟨r, hr⟩ := h
  by_cases hl : x.length ≤ r.length
  · left
    obtain ⟨t, ht⟩ := takePre hr.symm hl
    subst ht
    rw [List.append_assoc] at hr
    exact ⟨t, (List.append_cancel_left hr)⟩
  · right
    push_neg at hl
    obtain ⟨u, hu⟩ := takePre hr (Nat.le_of_lt hl)
    subst hu
    refine ⟨u, ⟨r, rfl⟩, ?_, ?_⟩
    · intro h0
      subst h0
      simp at hl
    · rw [List.append_assoc] at hr
      exact (List.append_cancel_left hr).symm

theorem sufCons {p : List Char} {c : Char} {l : List Char} (h : IsSuf p (c :: l)) :
    p = c :: l ∨ IsSuf p l := by
  obtain ⟨r, hr⟩ := h
  cases r with
  | nil => left; exact hr.symm
  | cons d r =>
    right
    simp only [List.cons_append, List.cons.injEq] at hr
    exact ⟨r, hr.2⟩

/-- Whether `pat` occurs as a contiguous segment anywhere in `s`. -/
def hasSub (pat : List Char) : List Char → Bool
  | [] => (stripPfx pat []).isSome
  | c :: cs => (stripPfx pat (c :: cs)).isSome || hasSub pat cs

theorem hasSub_nil {pat : List Char} (h : pat ≠ []) : hasSub pat [] = false := by
  cases pat with
  | nil => exact absurd rfl h
  | cons a p => simp [hasSub, stripPfx]

theorem hasSub_of_pre {pat s : List Char} (h : IsPre pat s) : hasSub pat s = true := by
  cases s with
  | nil =>
    obtain ⟨r, hr⟩ := h
    have : pat = [] := by
      cases pat with
      | nil => rfl
      | cons a p => simp at hr
    subst this
    simp [hasSub, stripPfx]
  | cons c cs =>
    simp only [hasSub, Bool.or_eq_true, Option.isSome_iff_exists]
    obtain ⟨r, hr⟩ := h
    exact Or.inl ⟨r, stripPfx_some_iff.mpr hr⟩

theorem hasSub_cons_elim {pat : List Char} {c : Char} {cs : List Char}
    (h : hasSub pat (c :: cs) = true) :
    IsPre pat (c :: cs) ∨ hasSub pat cs = true := by
  simp only [hasSub, Bool.or_eq_true, Option.isSome_iff_exists] at h
  rcases h with ⟨r, hr⟩ | h
  · exact Or.inl ⟨r, stripPfx_some_iff.mp hr⟩
  · exact Or.inr h

theorem hasSub_tail {pat : List Char} {c : Char} {cs : List Char}
    (h : hasSub pat cs = true) : hasSub pat (c :: cs) = true := by
  simp [hasSub, h]

theorem hasSub_append_right {pat y : List Char} (x : List Char)
    (h : hasSub pat y = true) : hasSub pat (x ++ y) = true := by
  induction x with
  | nil => exact h
  | cons c cs ih => exact hasSub_tail ih

theorem hasSub_append_left {pat x : List Char} (y : List Char)
    (h : hasSub pat x = true) : hasSub pat (x ++ y) = true := by
  induction x with
  | nil =>
    cases pat with
    | nil => exact hasSub_of_pre ⟨y, rfl⟩
    | cons a p => rw [hasSub_nil (by simp)] at h; exact absurd h (by simp)
  | cons c cs ih =>
    rcases hasSub_cons_elim h with hp | ht
    · exact hasSub_of_pre (hp.trans ⟨y, by simp⟩)
    · exact hasSub_tail (ih ht)

theorem hasSub_of_parts {pat s u v : List Char} (hs : s = u ++ pat ++ v) :
    hasSub pat s = true := by
  subst hs
  rw [List.append_assoc]
  exact hasSub_append_right u
    (hasSub_append_left v (hasSub_of_pre ⟨[], (List.append_nil pat).symm⟩))

theorem hasSub_length {pat s : List Char} (h : hasSub pat s = true) :
    pat.length ≤ s.length := by
  induction s with
  | nil =>
    cases pat with
    | nil => simp
    | cons a p => rw [hasSub_nil (by simp)] at h; exact absurd h (by simp)
  | cons c cs ih =>
    rcases hasSub_cons_elim h with hp | ht
    · exact isPre_length_le hp
    · exact Nat.le_trans (ih ht) (by simp)

theorem hasSub_append_elim {pat x y : List Char} (h : hasSub pat (x ++ y) = true) :
    (∃ u, IsSuf u x ∧ u ≠ [] ∧ IsPre pat (u ++ y)) ∨ hasSub pat y = true := by
  induction x with
  | nil => exact Or.inr h
  | cons c cs ih =>
    rcases hasSub_cons_elim h with hp | ht
    · exact Or.inl ⟨c :: cs, ⟨[], rfl⟩, by simp, hp⟩
    · rcases ih ht with ⟨u, hu, hne, hp⟩ | hy
      · obtain ⟨r, hr⟩ := hu
        subst hr
        exact Or.inl ⟨u, ⟨c :: r, rfl⟩, hne, hp⟩
      · exact Or.inr hy

/-!
`str.replace` from Python, specialised to non-empty patterns: scan left to
right, replace every non-overlapping occurrence, resume after each match.
The skip counter makes the recursion structural: after emitting the
replacement the remaining `pattern.length - 1` matched characters are dropped.
-/

def replaceGo (pat rep : List Char) : List Char → Nat → List Char
  | [], _ => []
  | _ :: cs, k + 1 => replaceGo pat rep cs k
  | c :: cs, 0 =>
    match stripPfx pat (c :: cs) with
    | some _ => rep ++ replaceGo pat rep cs (pat.length - 1)
    | none => c :: replaceGo pat rep cs 0

/-- Python `content.replace(pat, rep)` for a non-empty `pat`. -/
def replaceAll (pat rep s : List Char) : List Char := replaceGo pat rep s 0

theorem replaceGo_skip (pat rep : List Char) :
    ∀ x y, replaceGo pat rep (x ++ y) x.length = replaceGo pat rep y 0 := by
  intro x
  induction x with
  | nil => intro y; rfl
  | cons a x ih => intro y; exact ih y

theorem replaceAll_nil (pat rep : List Char) : replaceAll pat rep [] = [] := rfl

theorem hasSub_cons_false {pat : List Char} {c : Char} {cs : List Char}
    (h : hasSub pat (c :: cs) = false) : hasSub pat cs = false := by
  cases hs : hasSub pat cs with
  | false => rfl
  | true => rw [hasSub_tail hs] at h; exact absurd h (by simp)

theorem hasSub_cons_none {pat : List Char} {c : Char} {cs : List Char}
    (h : hasSub pat (c :: cs) = false) : stripPfx pat (c :: cs) = none := by
  cases hs : stripPfx pat (c :: cs) with
  | none => rfl
  | some r =>
    rw [hasSub_of_pre ⟨r, stripPfx_some_iff.mp hs⟩] at h
    exact absurd h (by simp)

theorem replaceAll_pos {pat : List Char} (rep : List Char) {c : Char} {cs r : List Char}
    (hne : pat ≠ []) (h : stripPfx pat (c :: cs) = some r) :
    replaceAll pat rep (c :: cs) = rep ++ replaceAll pat rep r := by
  have hsplit : c :: cs = pat ++ r := stripPfx_some_iff.mp h
  cases pat with
  | nil => exact absurd rfl hne
  | cons p0 pt =>
    have hcs : cs = pt ++ r := by
      simp only [List.cons_append, List.cons.injEq] at hsplit
      exact hsplit.2
    simp only [replaceAll, replaceGo, h]
    simp only [List.length_cons, Nat.add_sub_cancel]
    rw [hcs, replaceGo_skip]

theorem replaceAll_neg {pat : List Char} (rep : List Char) {c : Char} {cs : List Char}
    (h : stripPfx pat (c :: cs) = none) :
    replaceAll pat rep (c :: cs) = c :: replaceAll pat rep cs := by
  cases pat with
  | nil => simp [stripPfx] at h
  | cons p0 pt =>
    show replaceGo (p0 :: pt) rep (c :: cs) 0 = c :: replaceGo (p0 :: pt) rep cs 0
    simp [replaceGo, h]

theorem replaceAll_of_not_hasSub {pat rep s : List Char} (h : hasSub pat s = false) :
    replaceAll pat rep s = s := by
  induction s with
  | nil => rfl
  | cons c cs ih =>
    rw [replaceAll_neg rep (hasSub_cons_none h), ih (hasSub_cons_false h)]

/-- A replacement scan passes over a left factor untouched when the pattern
cannot occur at any position inside it: the factor is free of the pattern and
ends with a character the pattern does not contain, so no occurrence can
straddle its right edge. -/
theorem replaceAll_append {pat rep : List Char} {e : Char} (hc : e ∉ pat) :
    ∀ x, hasSub pat x = false → (x = [] ∨ IsSuf [e] x) →
    ∀ y, replaceAll pat rep (x ++ y) = x ++ replaceAll pat rep y := by
  intro x
  induction x with
  | nil => intro _ _ y; rfl
  | cons c cs ih =>
    intro hx hlast y
    have hsuf : IsSuf [e] (c :: cs) := by
      rcases hlast with h0 | h0
      · exact absurd h0 (by simp)
      · exact h0
    have hnotpre : stripPfx pat (c :: (cs ++ y)) = none := by
      rw [stripPfx_none_iff]
      intro hpre
      obtain ⟨r, hr⟩ := hpre
      by_cases hl : pat.length ≤ (c :: cs).length
      · have hpp : IsPre pat (c :: cs) := by
          have hr' : (c :: cs) ++ y = pat ++ r := by simpa using hr
          exact takePre hr' hl
        rw [hasSub_of_pre hpp] at hx
        exact absurd hx (by simp)
      · push_neg at hl
        have hpx : IsPre (c :: cs) pat := by
          have hr' : pat ++ r = (c :: cs) ++ y := by simpa using hr.symm
          exact takePre hr' (Nat.le_of_lt hl)
        exact hc (isPre_mem hpx (isSuf_mem hsuf (by simp)))
    rw [show (c :: cs) ++ y = c :: (cs ++ y) from rfl, replaceAll_neg rep hnotpre]
    have hcs_last : cs = [] ∨ IsSuf [e] cs := by
      rcases sufCons hsuf with h0 | h0
      · simp only [List.cons.injEq] at h0
        exact Or.inl h0.2.symm
      · exact Or.inr h0
    rw [ih (hasSub_cons_false hx) hcs_last y]
    rfl

/-!
Decimal rendering of natural numbers, as produced by Python f-string
formatting of a non-negative int (`f"{i}"`). The fuel argument makes the
recursion structural, so concrete instances evaluate by `decide`.
-/

def digitChar : Nat → Char
  | 0 => '0'
  | 1 => '1'
  | 2 => '2'
  | 3 => '3'
  | 4 => '4'
  | 5 => '5'
  | 6 => '6'
  | 7 => '7'
  | 8 => '8'
  | 9 => '9'
  | _ => '*'

def digitVal (c : Char) : Nat :=
  if c = '0' then 0 else if c = '1' then 1 else if c = '2' then 2 else if c = '3' then 3
  else if c = '4' then 4 else if c = '5' then 5 else if c = '6' then 6 else if c = '7' then 7
  else if c = '8' then 8 else 9

def digitChars : List Char := ['0', '1', '2', '3', '4', '5', '6', '7', '8', '9']

def natStrGo : Nat → Nat → List Char → List Char
  | 0, _, acc => acc
  | fuel + 1, n, acc =>
    if n < 10 then digitChar (n % 10) :: acc
    else natStrGo fuel (n / 10) (digitChar (n % 10) :: acc)

/-- Decimal digit string of `n`, most significant digit first. -/
def natStr (n : Nat) : List Char := natStrGo (n + 1) n []

def decVal (ds : List Char) : Nat := ds.foldl (fun a c => 10 * a + digitVal c) 0

theorem digitVal_digitChar {d : Nat} (hd : d < 10) : digitVal (digitChar d) = d := by
  interval_cases d <;> rfl

theorem digitChar_mem {d : Nat} (hd : d < 10) : digitChar d ∈ digitChars := by
  interval_cases d <;> decide

theorem decVal_concat (ds : List Char) (c : Char) :
    decVal (ds ++ [c]) = 10 * decVal ds + digitVal c := by
  simp [decVal, List.foldl_append]

theorem natStrGo_spec : ∀ fuel, 1 ≤ fuel → ∀ n acc, n < 10 ^ fuel →
    ∃ ds, natStrGo fuel n acc = ds ++ acc ∧ ds ≠ [] ∧
      (∀ c ∈ ds, c ∈ digitChars) ∧ decVal ds = n := by
  intro fuel
  induction fuel with
  | zero => intro h; exact absurd h (by simp)
  | succ fuel ih =>
    intro _ n acc hn
    by_cases h10 : n < 10
    · refine ⟨[digitChar (n % 10)], by simp [natStrGo, h10], by simp, ?_, ?_⟩
      · intro c hc
        simp only [List.mem_singleton] at hc
        subst hc
        exact digitChar_mem (Nat.mod_lt n (by norm_num))
      · have hmod : n % 10 = n := Nat.mod_eq_of_lt h10
        simp [decVal, hmod, digitVal_digitChar h10]
    · push_neg at h10
      have hfuel : 1 ≤ fuel := by
        rcases Nat.eq_zero_or_pos fuel with h0 | h0
        · subst h0
          have : n < 10 := by simpa using hn
          omega
        · exact h0
      have hdiv : n / 10 < 10 ^ fuel := by
        rw [Nat.div_lt_iff_lt_mul (by norm_num)]
        calc n < 10 ^ (fuel + 1) := hn
          _ = 10 ^ fuel * 10 := by ring
      obtain ⟨ds, hds, hne, hdig, hval⟩ := ih hfuel (n / 10) (digitChar (n % 10) :: acc) hdiv
      refine ⟨ds ++ [digitChar (n % 10)], ?_, by simp, ?_, ?_⟩
      · rw [show natStrGo (fuel + 1) n acc = natStrGo fuel (n / 10) (digitChar (n % 10) :: acc)
          from by simp [natStrGo, Nat.not_lt.mpr h10], hds]
        simp
      · intro c hc
        rcases List.mem_append.mp hc with h | h
        · exact hdig c h
        · simp only [List.mem_singleton] at h
          subst h
          exact digitChar_mem (Nat.mod_lt n (by norm_num))
      · rw [decVal_concat, hval, digitVal_digitChar (Nat.mod_lt n (by norm_num))]
        exact Nat.div_add_mod n 10

theorem natStr_spec (n : Nat) :
    natStr n ≠ [] ∧ (∀ c ∈ natStr n, c ∈ digitChars) ∧ decVal (natStr n) = n := by
  have h : n < 10 ^ (n + 1) := by
    calc n < 10 ^ n := Nat.lt_pow_self (by norm_num) n
      _ ≤ 10 ^ (n + 1) := Nat.pow_le_pow_right (by norm_num) (Nat.le_succ n)
  obtain ⟨ds, hds, hne, hdig, hval⟩ := natStrGo_spec (n + 1) (by omega) n [] h
  have : natStr n = ds := by
    rw [natStr, hds]
    simp
  rw [this]
  exact ⟨hne, hdig, hval⟩

theorem natStr_ne_nil (n : Nat) : natStr n ≠ [] := (natStr_spec n).1

theorem natStr_digits {n : Nat} {c : Char} (hc : c ∈ natStr n) : c ∈ digitChars :=
  (natStr_spec n).2.1 c hc

theorem natStr_inj {m n : Nat} (h : natStr m = natStr n) : m = n := by
  have hm := (natStr_spec m).2.2
  have hn := (natStr_spec n).2.2
  rw [h, hn] at hm
  exact hm.symm

/-!
The placeholder token `CODEBLOCK_<i>_PLACEHOLDER` used by
`protect_code_blocks` / `restore_code_blocks` (helpers.py), and the
string-combinatorial facts about the token family that the round-trip
argument rests on.
-/

def cbPre : List Char := "CODEBLOCK_".data

def phSuf : List Char := "_PLACEHOLDER".data

/-- The placeholder text `f"CODEBLOCK_{i}_PLACEHOLDER"`. -/
def ph (i : Nat) : List Char := cbPre ++ natStr i ++ phSuf

def phTail (i : Nat) : List Char := ("ODEBLOCK_".data) ++ natStr i ++ phSuf

def phTail2 (i : Nat) : List Char := ("DEBLOCK_".data) ++ natStr i ++ phSuf

theorem ph_head (i : Nat) : ph i = 'C' :: phTail i := rfl

theorem ph_head2 (i : Nat) : ph i = 'C' :: 'O' :: phTail2 i := rfl

theorem ph_ne_nil (i : Nat) : ph i ≠ [] := by
  rw [ph_head]
  simp

theorem ph_length (i : Nat) : (ph i).length = 22 + (natStr i).length := by
  have h1 : cbPre.length = 10 := by decide
  have h2 : phSuf.length = 12 := by decide
  simp only [ph, List.length_append, h1, h2]
  omega

theorem ph_length_ge (i : Nat) : 23 ≤ (ph i).length := by
  rw [ph_length]
  have : 1 ≤ (natStr i).length :=
    List.length_pos.mpr (natStr_ne_nil i)
  omega

theorem digit_ne_uscore {c : Char} (h : c ∈ digitChars) : c ≠ '_' := by
  fin_cases h <;> decide

theorem digit_ne_C {c : Char} (h : c ∈ digitChars) : c ≠ 'C' := by
  fin_cases h <;> decide

theorem digit_ne_nl {c : Char} (h : c ∈ digitChars) : c ≠ '\n' := by
  fin_cases h <;> decide

theorem digit_ne_bt {c : Char} (h : c ∈ digitChars) : c ≠ Char.ofNat 96 := by
  fin_cases h <;> decide

theorem bt_not_mem_ph (i : Nat) : Char.ofNat 96 ∉ ph i := by
  intro hmem
  simp only [ph, List.append_assoc, List.mem_append] at hmem
  rcases hmem with h | h | h
  · revert h; decide
  · exact absurd rfl (digit_ne_bt (natStr_digits h))
  · revert h; decide

/-- Two digit runs followed by an underscore-led suffix align exactly. -/
theorem digit_seq_cancel : ∀ a b u v : List Char,
    (∀ c ∈ a, c ∈ digitChars) → (∀ c ∈ b, c ∈ digitChars) →
    a ++ '_' :: u = b ++ '_' :: v → a = b ∧ u = v := by
  intro a
  induction a with
  | nil =>
    intro b u v _ hb h
    cases b with
    | nil =>
      simp only [List.nil_append, List.cons.injEq] at h
      exact ⟨rfl, h.2⟩
    | cons e b' =>
      simp only [List.nil_append, List.cons_append, List.cons.injEq] at h
      exact absurd h.1.symm (digit_ne_uscore (hb e (by simp)))
  | cons d a' ih =>
    intro b u v ha hb h
    cases b with
    | nil =>
      simp only [List.cons_append, List.nil_append, List.cons.injEq] at h
      exact absurd h.1 (digit_ne_uscore (ha d (by simp)))
    | cons e b' =>
      simp only [List.cons_append, List.cons.injEq] at h
      obtain ⟨hde, h2⟩ := h
      obtain ⟨hab, huv⟩ := ih b' u v (fun c hc => ha c (by simp [hc]))
        (fun c hc => hb c (by simp [hc])) h2
      exact ⟨by rw [hde, hab], huv⟩

/-- One placeholder token is an initial segment of another only when the two
are the same token. -/
theorem ph_pre {i j : Nat} (h : IsPre (ph i) (ph j)) : i = j ∧ ph i = ph j := by
  obtain ⟨r, hr⟩ := h
  have hr' : cbPre ++ (natStr j ++ ('_' :: ("PLACEHOLDER".data))) =
      cbPre ++ (natStr i ++ ('_' :: (("PLACEHOLDER".data) ++ r))) := by
    have h0 : ph j = ph i ++ r := hr
    simp only [ph, List.append_assoc] at h0
    simpa [phSuf] using h0
  have h2 := List.append_cancel_left hr'
  obtain ⟨hij, hrest⟩ := digit_seq_cancel (natStr j) (natStr i) _ _
    (fun c hc => natStr_digits hc) (fun c hc => natStr_digits hc) h2
  have hr0 : r = [] := by
    have := congrArg List.length hrest
    simp at this
    exact this
  subst hr0
  exact ⟨(natStr_inj hij).symm, by rw [hr]; simp⟩

theorem suf_drop {p s : List Char} (h : IsSuf p s) :
    ∃ k, k ≤ s.length ∧ p = s.drop k := by
  obtain ⟨r, hr⟩ := h
  subst hr
  exact ⟨r.length, by simp, by simp⟩

/-- A non-empty final segment of one placeholder that is also an initial
segment of another placeholder must be the whole token, and the two tokens
coincide. -/
theorem ph_suf_pre {p : List Char} {n i : Nat} (hne : p ≠ [])
    (hs : IsSuf p (ph n)) (hp : IsPre p (ph i)) : p = ph n ∧ i = n := by
  obtain ⟨r, hr⟩ := hp
  have hs' : IsSuf p (cbPre ++ (natStr n ++ phSuf)) := by
    simpa [ph, List.append_assoc] using hs
  rcases sufSplit hs' with hA | ⟨u, hu, hune, hpu⟩
  · rcases sufSplit hA with hA1 | ⟨u, hu, hune, hpu⟩
    · obtain ⟨k, hk, hpk⟩ := suf_drop hA1
      have hk' : k ≤ 12 := by simpa [phSuf] using hk
      interval_cases k <;> subst hpk <;>
        first
          | exact absurd rfl hne
          | (rw [ph_head2] at hr; simp [phSuf] at hr)
    · obtain ⟨r0, hr0⟩ := hu
      cases u with
      | nil => exact absurd rfl hune
      | cons c0 u' =>
        have hdig : c0 ∈ digitChars := by
          apply natStr_digits (n := n)
          rw [hr0]
          simp
        rw [hpu, ph_head] at hr
        simp only [List.cons_append, List.cons.injEq] at hr
        exact absurd hr.1.symm (digit_ne_C hdig)
  · obtain ⟨k, hk, hpk⟩ := suf_drop hu
    have hk' : k ≤ 10 := by simpa [cbPre] using hk
    interval_cases k <;> subst hpk
    · constructor
      · rw [hpu]
        simp [ph, List.append_assoc]
    
      · have hpre : IsPre (ph n) (ph i) := by
          refine ⟨r, ?_⟩
          rw [hr, hpu]
          simp [ph, List.append_assoc]
        exact (ph_pre hpre).1.symm
    all_goals
      first
        | exact absurd rfl hune
        | (rw [hpu, ph_head2] at hr; simp [cbPre] at hr)

/-- Scanning over characters distinct from `'C'` cannot start an occurrence
of a placeholder token. -/
theorem walkC {i : Nat} : ∀ x y, (∀ c ∈ x, c ≠ 'C') →
    hasSub (ph i) (x ++ y) = true → hasSub (ph i) y = true := by
  intro x
  induction x with
  | nil => intro y _ h; exact h
  | cons c cs ih =>
    intro y hx h
    rw [List.cons_append] at h
    rcases hasSub_cons_elim h with hpre | htail
    · obtain ⟨r, hr⟩ := hpre
      rw [ph_head] at hr
      simp only [List.cons_append, List.cons.injEq] at hr
      exact absurd hr.1 (hx c (by simp))
    · exact ih y (fun d hd => hx d (by simp [hd])) htail

/-- One placeholder token occurs inside another only when the two coincide. -/
theorem ph_sub_eq {i j : Nat} (h : hasSub (ph i) (ph j) = true) : i = j := by
  rw [ph_head j] at h
  rcases hasSub_cons_elim h with hpre | h1
  · rw [← ph_head j] at hpre
    exact (ph_pre hpre).1
  · have hsplit : phTail j =
        ("ODEBLO".data) ++ ('C' :: (("K_".data) ++ (natStr j ++ phSuf))) := rfl
    rw [hsplit] at h1
    have h2 := walkC _ _ (by decide) h1
    rcases hasSub_cons_elim h2 with hpre | h3
    · obtain ⟨r, hr⟩ := hpre
      rw [ph_head2] at hr
      simp at hr
    · have hsplit2 : ("K_".data) ++ (natStr j ++ phSuf) =
          (("K_".data) ++ natStr j ++ ("_PLA".data)) ++ ('C' :: ("EHOLDER".data)) := by
        simp only [List.append_assoc]
        rfl
      rw [hsplit2] at h3
      have hnoC : ∀ c ∈ ("K_".data) ++ natStr j ++ ("_PLA".data), c ≠ 'C' := by
        intro c hc
        simp only [List.append_assoc, List.mem_append] at hc
        rcases hc with hc | hc | hc
        · fin_cases hc <;> decide
        · exact digit_ne_C (natStr_digits hc)
        · fin_cases hc <;> decide
      have h4 := walkC _ _ hnoC h3
      have hlen := hasSub_length h4
      have hge := ph_length_ge i
      have h8 : ('C' :: ("EHOLDER".data)).length = 8 := by decide
      rw [h8] at hlen
      omega

/-!
The fenced-code-block pattern of helpers.py:
`r"```[a-z]*\n[\s\S]*?\n```"` — a fence marker, a greedy run of lowercase
ASCII letters, a newline, then the shortest content closed by a newline and a
closing fence marker.
-/

def fence3 : List Char := "```".data

def nlFence : List Char := "\n```".data

def isLowerAZ (c : Char) : Bool := 'a' ≤ c && c ≤ 'z'

/-- Earliest split of `t` as `body ++ "\n```" ++ rest` (the non-greedy
`[\s\S]*?` part of the pattern, closed by a newline and a fence). -/
def findClose : List Char → Option (List Char × List Char)
  | [] => none
  | c :: cs =>
    match stripPfx nlFence (c :: cs) with
    | some r => some ([], r)
    | none => (findClose cs).map (fun p => (c :: p.1, p.2))

/-- The fence pattern matched at the start of `s`: returns the matched text
and the remainder of `s`. -/
def matchFenceAt (s : List Char) : Option (List Char × List Char) :=
  match stripPfx fence3 s with
  | none => none
  | some t1 =>
    let tag := t1.takeWhile isLowerAZ
    match stripPfx ['\n'] (t1.dropWhile isLowerAZ) with
    | none => none
    | some t2 =>
      match findClose t2 with
      | some (body, rest) => some (fence3 ++ tag ++ '\n' :: body ++ nlFence, rest)
      | none => none

theorem findClose_split : ∀ t body rest, findClose t = some (body, rest) →
    t = body ++ nlFence ++ rest := by
  intro t
  induction t with
  | nil => intro body rest h; simp [findClose] at h
  | cons c cs ih =>
    intro body rest h
    simp only [findClose] at h
    cases hs : stripPfx nlFence (c :: cs) with
    | some r =>
      rw [hs] at h
      simp only [Option.some.injEq, Prod.mk.injEq] at h
      obtain ⟨hb, hr⟩ := h
      subst hb
      subst hr
      simpa using (stripPfx_some_iff.mp hs)
    | none =>
      rw [hs] at h
      cases hf : findClose cs with
      | none => rw [hf] at h; simp at h
      | some pr =>
        obtain ⟨b2, r2⟩ := pr
        rw [hf] at h
        simp only [Option.map_some', Option.some.injEq, Prod.mk.injEq] at h
        obtain ⟨hb, hr⟩ := h
        subst hb
        subst hr
        rw [ih b2 r2 hf]
        simp

theorem matchFence_split {s m rest : List Char} (h : matchFenceAt s = some (m, rest)) :
    s = m ++ rest ∧ m ≠ [] ∧ IsPre fence3 m ∧ IsSuf nlFence m := by
  unfold matchFenceAt at h
  cases h1 : stripPfx fence3 s with
  | none => rw [h1] at h; simp at h
  | some t1 =>
    rw [h1] at h
    simp only at h
    cases h2 : stripPfx ['\n'] (t1.dropWhile isLowerAZ) with
    | none => rw [h2] at h; simp at h
    | some t2 =>
      rw [h2] at h
      simp only at h
      cases h3 : findClose t2 with
      | none => rw [h3] at h; simp at h
      | some pr =>
        obtain ⟨body, r2⟩ := pr
        rw [h3] at h
        simp only [Option.some.injEq, Prod.mk.injEq] at h
        obtain ⟨hm, hr⟩ := h
        subst hm
        subst hr
        have hs : s = fence3 ++ t1 := stripPfx_some_iff.mp h1
        have ht1 : t1 = t1.takeWhile isLowerAZ ++ ('\n' :: t2) := by
          conv_lhs => rw [← List.takeWhile_append_dropWhile (p := isLowerAZ) (l := t1)]
          rw [stripPfx_some_iff.mp h2]
          simp
        have ht2 : t2 = body ++ nlFence ++ r2 := findClose_split t2 body r2 h3
        set tag := t1.takeWhile isLowerAZ with htag
        refine ⟨?_, by simp, ⟨tag ++ '\n' :: body ++ nlFence,
            by simp [List.append_assoc]⟩,
          ⟨fence3 ++ tag ++ '\n' :: body, by simp [List.append_assoc]⟩⟩
        rw [hs, ht1, ht2]
        simp [List.append_assoc]

theorem matchFence_rest_lt {s m rest : List Char} (h : matchFenceAt s = some (m, rest)) :
    rest.length < s.length := by
  obtain ⟨hs, hne, _⟩ := matchFence_split h
  have := congrArg List.length hs
  simp only [List.length_append] at this
  have h1 : 1 ≤ m.length := List.length_pos.mpr hne
  omega

/-!
The protection scanner of `protect_code_blocks` (helpers.py): `re.sub` over
the fence pattern, replacing the i-th match (left to right) with `ph i` and
collecting the matched texts. The skip counter keeps the recursion
structural: after a match is consumed, the remaining `m.length - 1` matched
characters are dropped before scanning resumes.
-/

def protectGo : List Char → Nat → Nat → List Char × List (List Char)
  | [], _, _ => ([], [])
  | _ :: cs, skip + 1, i => protectGo cs skip i
  | c :: cs, 0, i =>
    match matchFenceAt (c :: cs) with
    | some (m, _) =>
      let r := protectGo cs (m.length - 1) (i + 1)
      (ph i ++ r.1, m :: r.2)
    | none =>
      let r := protectGo cs 0 i
      (c :: r.1, r.2)

/-- Models `protect_code_blocks` from helpers.py. -/
def protect_code_blocks (content : List Char) : List Char × List (List Char) :=
  protectGo content 0 0

def restoreGo : List Char → List (List Char) → Nat → List Char
  | content, [], _ => content
  | content, b :: bs, i => restoreGo (replaceAll (ph i) b content) bs (i + 1)

/-- Models `restore_code_blocks` from helpers.py: replace every occurrence of the
i-th placeholder with the i-th stored block, in increasing order of i. -/
def restore_code_blocks (content : List Char) (code_blocks : List (List Char)) : List Char :=
  restoreGo content code_blocks 0

/-- The list of fence matches of the text, first to last. -/
def fenceGo : List Char → Nat → List (List Char)
  | [], _ => []
  | _ :: cs, skip + 1 => fenceGo cs skip
  | c :: cs, 0 =>
    match matchFenceAt (c :: cs) with
    | some (m, _) => m :: fenceGo cs (m.length - 1)
    | none => fenceGo cs 0

def fenceMatches (s : List Char) : List (List Char) := fenceGo s 0

/-- The protected text with the placeholders of index below `k` replaced back
by their blocks: the intermediate states of the restoration loop. -/
def restoredTo (k : Nat) : List Char → Nat → Nat → List Char
  | [], _, _ => []
  | _ :: cs, skip + 1, n => restoredTo k cs skip n
  | c :: cs, 0, n =>
    match matchFenceAt (c :: cs) with
    | some (m, _) => (if n < k then m else ph n) ++ restoredTo k cs (m.length - 1) (n + 1)
    | none => c :: restoredTo k cs 0 n

theorem protectGo_skip (i : Nat) :
    ∀ x y, protectGo (x ++ y) x.length i = protectGo y 0 i := by
  intro x
  induction x with
  | nil => intro y; rfl
  | cons a x ih => intro y; exact ih y

theorem fenceGo_skip : ∀ x y, fenceGo (x ++ y) x.length = fenceGo y 0 := by
  intro x
  induction x with
  | nil => intro y; rfl
  | cons a x ih => intro y; exact ih y

theorem restoredTo_skip (k n : Nat) :
    ∀ x y, restoredTo k (x ++ y) x.length n = restoredTo k y 0 n := by
  intro x
  induction x with
  | nil => intro y; rfl
  | cons a x ih => intro y; exact ih y

theorem protectGo_pos {s m rest : List Char} (i : Nat)
    (h : matchFenceAt s = some (m, rest)) :
    protectGo s 0 i =
      (ph i ++ (protectGo rest 0 (i + 1)).1, m :: (protectGo rest 0 (i + 1)).2) := by
  obtain ⟨hs, hne, _⟩ := matchFence_split h
  cases m with
  | nil => exact absurd rfl hne
  | cons c0 mt =>
    rw [List.cons_append] at hs
    subst hs
    simp only [protectGo, h, List.length_cons, Nat.add_sub_cancel]
    rw [protectGo_skip]

theorem protectGo_neg {c : Char} {cs : List Char} (i : Nat)
    (h : matchFenceAt (c :: cs) = none) :
    protectGo (c :: cs) 0 i = (c :: (protectGo cs 0 i).1, (protectGo cs 0 i).2) := by
  simp only [protectGo, h]

theorem fenceGo_pos {s m rest : List Char} (h : matchFenceAt s = some (m, rest)) :
    fenceGo s 0 = m :: fenceGo rest 0 := by
  obtain ⟨hs, hne, _⟩ := matchFence_split h
  cases m with
  | nil => exact absurd rfl hne
  | cons c0 mt =>
    rw [List.cons_append] at hs
    subst hs
    simp only [fenceGo, h, List.length_cons, Nat.add_sub_cancel]
    rw [fenceGo_skip]

theorem fenceGo_neg {c : Char} {cs : List Char} (h : matchFenceAt (c :: cs) = none) :
    fenceGo (c :: cs) 0 = fenceGo cs 0 := by
  simp only [fenceGo, h]

theorem restoredTo_pos {s m rest : List Char} (k n : Nat)
    (h : matchFenceAt s = some (m, rest)) :
    restoredTo k s 0 n = (if n < k then m else ph n) ++ restoredTo k rest 0 (n + 1) := by
  obtain ⟨hs, hne, _⟩ := matchFence_split h
  cases m with
  | nil => exact absurd rfl hne
  | cons c0 mt =>
    rw [List.cons_append] at hs
    subst hs
    simp only [restoredTo, h, List.length_cons, Nat.add_sub_cancel]
    rw [restoredTo_skip]

theorem restoredTo_neg {c : Char} {cs : List Char} (k n : Nat)
    (h : matchFenceAt (c :: cs) = none) :
    restoredTo k (c :: cs) 0 n = c :: restoredTo k cs 0 n := by
  simp only [restoredTo, h]

/-- Induction along the left-to-right scan of the fence pattern. -/
theorem protectInd (motive : List Char → Prop) (h0 : motive [])
    (h1 : ∀ s m rest, matchFenceAt s = some (m, rest) → motive rest → motive s)
    (h2 : ∀ c cs, matchFenceAt (c :: cs) = none → motive cs → motive (c :: cs)) :
    ∀ s, motive s := by
  have key : ∀ n s, s.length ≤ n → motive s := by
    intro n
    induction n with
    | zero =>
      intro s hs
      rw [List.eq_nil_of_length_eq_zero (Nat.le_zero.mp hs)]
      exact h0
    | succ n ih =>
      intro s hs
      cases s with
      | nil => exact h0
      | cons c cs =>
        cases hm : matchFenceAt (c :: cs) with
        | some pr =>
          obtain ⟨m, rest⟩ := pr
          have hlt := matchFence_rest_lt hm
          have hrest : rest.length ≤ n := by
            simp only [List.length_cons] at hs hlt
            omega
          exact h1 _ m rest hm (ih rest hrest)
        | none =>
          refine h2 c cs hm (ih cs ?_)
          simp only [List.length_cons] at hs
          omega
  intro s
  exact key s.length s le_rfl

/-- Texts free of every placeholder token. -/
def Clean (s : List Char) : Prop := ∀ j : Nat, hasSub (ph j) s = false

theorem Clean.tail {c : Char} {cs : List Char} (h : Clean (c :: cs)) : Clean cs :=
  fun j => hasSub_cons_false (h j)

theorem Clean.right {x y : List Char} (h : Clean (x ++ y)) : Clean y := by
  intro j
  cases hval : hasSub (ph j) y with
  | false => rfl
  | true =>
    have h2 := h j
    rw [hasSub_append_right x hval] at h2
    exact absurd h2 (by simp)

theorem Clean.left {x y : List Char} (h : Clean (x ++ y)) : Clean x := by
  intro j
  cases hval : hasSub (ph j) x with
  | false => rfl
  | true =>
    have h2 := h j
    rw [hasSub_append_left y hval] at h2
    exact absurd h2 (by simp)

theorem phTail_ne_nil (i : Nat) : phTail i ≠ [] := by
  simp [phTail]

theorem replaceAll_self_append (pat rep y : List Char) (hne : pat ≠ []) :
    replaceAll pat rep (pat ++ y) = rep ++ replaceAll pat rep y := by
  cases pat with
  | nil => exact absurd rfl hne
  | cons pc pcs =>
    exact replaceAll_pos rep (by simp) (stripPfx_self_append (pc :: pcs) y)

theorem protectGo_pos_fst {s m rest : List Char} (i : Nat)
    (h : matchFenceAt s = some (m, rest)) :
    (protectGo s 0 i).1 = ph i ++ (protectGo rest 0 (i + 1)).1 := by
  rw [protectGo_pos i h]

theorem protectGo_pos_snd {s m rest : List Char} (i : Nat)
    (h : matchFenceAt s = some (m, rest)) :
    (protectGo s 0 i).2 = m :: (protectGo rest 0 (i + 1)).2 := by
  rw [protectGo_pos i h]

theorem protectGo_neg_fst {c : Char} {cs : List Char} (i : Nat)
    (h : matchFenceAt (c :: cs) = none) :
    (protectGo (c :: cs) 0 i).1 = c :: (protectGo cs 0 i).1 := by
  rw [protectGo_neg i h]

theorem protectGo_neg_snd {c : Char} {cs : List Char} (i : Nat)
    (h : matchFenceAt (c :: cs) = none) :
    (protectGo (c :: cs) 0 i).2 = (protectGo cs 0 i).2 := by
  rw [protectGo_neg i h]

/-- A proper tail of a placeholder token that survives as an initial segment
of a protected text must come from the original text: placeholders inserted
by protection with a fresh index cannot complete it. -/
theorem ph_pre_protect : ∀ s, Clean s → ∀ n i q w, i < n → ph i = q ++ w → w ≠ [] →
    IsPre w ((protectGo s 0 n).1) → IsPre w s := by
  intro s
  induction s using protectInd with
  | h0 =>
    intro _ n i q w _ _ hw hpre
    obtain ⟨r, hr⟩ := hpre
    cases w with
    | nil => exact absurd rfl hw
    | cons a ws => simp [protectGo] at hr
  | h1 s m rest hm ih =>
    intro hcl n i q w hin hphi hw hpre
    rw [protectGo_pos_fst n hm] at hpre
    obtain ⟨r, hr⟩ := hpre
    by_cases hl : w.length ≤ (ph n).length
    · have hwp : IsPre w (ph n) := takePre hr hl
      have hws : IsSuf w (ph i) := ⟨q, hphi⟩
      obtain ⟨hwn, hin'⟩ := ph_suf_pre hw hws hwp
      omega
    · push_neg at hl
      have hnp : IsPre (ph n) w := takePre hr.symm (Nat.le_of_lt hl)
      obtain ⟨t, ht⟩ := hnp
      have hsub : hasSub (ph n) (ph i) = true := by
        refine hasSub_of_parts (u := q) (v := t) ?_
        rw [hphi, ht, List.append_assoc]
      have := ph_sub_eq hsub
      omega
  | h2 c cs hm ih =>
    intro hcl n i q w hin hphi hw hpre
    rw [protectGo_neg_fst n hm] at hpre
    obtain ⟨r, hr⟩ := hpre
    cases w with
    | nil => exact absurd rfl hw
    | cons a ws =>
      simp only [List.cons_append, List.cons.injEq] at hr
      obtain ⟨hac, hr2⟩ := hr
      by_cases hws : ws = []
      · subst hws
        exact ⟨cs, by rw [hac]; rfl⟩
      · have ihr : IsPre ws cs := ih hcl.tail n i (q ++ [a]) ws hin
          (by rw [hphi]; simp) hws ⟨r, hr2⟩
        obtain ⟨r2, hr3⟩ := ihr
        exact ⟨r2, by rw [hr3, hac]; rfl⟩

/-- No placeholder of index below the running index occurs in a protected
clean text. -/
theorem ph_not_in_protected : ∀ s, Clean s → ∀ n i, i < n →
    hasSub (ph i) ((protectGo s 0 n).1) = false := by
  intro s
  induction s using protectInd with
  | h0 =>
    intro _ n i _
    exact hasSub_nil (ph_ne_nil i)
  | h1 s m rest hm ih =>
    intro hcl n i hin
    obtain ⟨hs, hne, hf3, hnl⟩ := matchFence_split hm
    rw [protectGo_pos_fst n hm]
    cases hval : hasSub (ph i) (ph n ++ (protectGo rest 0 (n + 1)).1) with
    | false => rfl
    | true =>
      exfalso
      rcases hasSub_append_elim hval with ⟨u, hu, hune, hp⟩ | hy
      · obtain ⟨r, hr⟩ := hp
        by_cases hl : (ph i).length ≤ u.length
        · have hpiu : IsPre (ph i) u := takePre hr hl
          obtain ⟨t, ht⟩ := hpiu
          obtain ⟨v, hv⟩ := hu
          have hsub : hasSub (ph i) (ph n) = true := by
            refine hasSub_of_parts (u := v) (v := t) ?_
            rw [hv, ht, List.append_assoc]
          have := ph_sub_eq hsub
          omega
        · push_neg at hl
          have hupre : IsPre u (ph i) := takePre hr.symm (Nat.le_of_lt hl)
          obtain ⟨hu_eq, hin'⟩ := ph_suf_pre hune hu hupre
          omega
      · have hclr : Clean rest := by
          rw [hs] at hcl
          exact hcl.right
        have := ih hclr (n + 1) i (by omega)
        rw [hy] at this
        exact absurd this (by simp)
  | h2 c cs hm ih =>
    intro hcl n i hin
    rw [protectGo_neg_fst n hm]
    cases hval : hasSub (ph i) (c :: (protectGo cs 0 n).1) with
    | false => rfl
    | true =>
      exfalso
      rcases hasSub_cons_elim hval with hpre | htail
      · obtain ⟨r, hr⟩ := hpre
        rw [ph_head] at hr
        simp only [List.cons_append, List.cons.injEq] at hr
        obtain ⟨hc, hr2⟩ := hr
        have hw : IsPre (phTail i) cs :=
          ph_pre_protect cs hcl.tail n i ['C'] (phTail i) hin (ph_head i)
            (phTail_ne_nil i) ⟨r, hr2⟩
        obtain ⟨r2, hr3⟩ := hw
        have hp2 : IsPre (ph i) (c :: cs) := ⟨r2, by rw [ph_head, hr3, hc]; rfl⟩
        have h1 := hasSub_of_pre hp2
        have h2 := hcl i
        rw [h2] at h1
        exact absurd h1 (by simp)
      · have := ih hcl.tail n i hin
        rw [htail] at this
        exact absurd this (by simp)

/-- A proper tail of the pending placeholder cannot start at an original
character of a partially restored clean text unless it already sits in the
original text. -/
theorem ph_pre_restored : ∀ s, Clean s → ∀ n k q w, n ≤ k → ph k = q ++ w → q ≠ [] →
    w ≠ [] → IsPre w (restoredTo k s 0 n) → IsPre w s := by
  intro s
  induction s using protectInd with
  | h0 =>
    intro _ n k q w _ _ _ hw hpre
    obtain ⟨r, hr⟩ := hpre
    cases w with
    | nil => exact absurd rfl hw
    | cons a ws => simp [restoredTo] at hr
  | h1 s m rest hm ih =>
    intro hcl n k q w hnk hphk hq hw hpre
    obtain ⟨hs, hne, hf3, hnl⟩ := matchFence_split hm
    rw [restoredTo_pos k n hm] at hpre
    by_cases hnltk : n < k
    · rw [if_pos hnltk] at hpre
      obtain ⟨r, hr⟩ := hpre
      by_cases hl : w.length ≤ m.length
      · have hwm : IsPre w m := takePre hr hl
        exact hwm.trans ⟨rest, hs⟩
      · push_neg at hl
        have hmw : IsPre m w := takePre hr.symm (Nat.le_of_lt hl)
        have hbt_m : Char.ofNat 96 ∈ m := isPre_mem hf3 (by decide)
        have hbt_w : Char.ofNat 96 ∈ w := isPre_mem hmw hbt_m
        have hsufw : IsSuf w (ph k) := ⟨q, hphk⟩
        have hbt_ph : Char.ofNat 96 ∈ ph k := isSuf_mem hsufw hbt_w
        exact absurd hbt_ph (bt_not_mem_ph k)
    · have hnk' : n = k := by omega
      subst hnk'
      rw [if_neg hnltk] at hpre
      obtain ⟨r, hr⟩ := hpre
      have hwlen : w.length < (ph n).length := by
        have h1 : (ph n).length = q.length + w.length := by
          rw [hphk]; simp
        have hq1 : 1 ≤ q.length := List.length_pos.mpr hq
        omega
      have hwp : IsPre w (ph n) := takePre hr (Nat.le_of_lt hwlen)
      have hws : IsSuf w (ph n) := ⟨q, hphk⟩
      obtain ⟨hw_eq, _⟩ := ph_suf_pre hw hws hwp
      rw [hw_eq] at hwlen
      omega
  | h2 c cs hm ih =>
    intro hcl n k q w hnk hphk hq hw hpre
    rw [restoredTo_neg k n hm] at hpre
    obtain ⟨r, hr⟩ := hpre
    cases w with
    | nil => exact absurd rfl hw
    | cons a ws =>
      simp only [List.cons_append, List.cons.injEq] at hr
      obtain ⟨hac, hr2⟩ := hr
      by_cases hws : ws = []
      · subst hws
        exact ⟨cs, by rw [hac]; rfl⟩
      · have ihr := ih hcl.tail n k (q ++ [a]) ws hnk (by rw [hphk]; simp)
          (by simp) hws ⟨r, hr2⟩
        obtain ⟨r2, hr3⟩ := ihr
        exact ⟨r2, by rw [hr3, hac]; rfl⟩

theorem restoredTo_eq_protected : ∀ s n k, k ≤ n →
    restoredTo k s 0 n = (protectGo s 0 n).1 := by
  intro s
  induction s using protectInd with
  | h0 => intro n k _; rfl
  | h1 s m rest hm ih =>
    intro n k hk
    rw [restoredTo_pos k n hm, protectGo_pos_fst n hm, if_neg (by omega),
      ih (n + 1) k (by omega)]
  | h2 c cs hm ih =>
    intro n k hk
    rw [restoredTo_neg k n hm, protectGo_neg_fst n hm, ih n k hk]

theorem protect_blocks_eq : ∀ s n, (protectGo s 0 n).2 = fenceGo s 0 := by
  intro s
  induction s using protectInd with
  | h0 => intro n; rfl
  | h1 s m rest hm ih =>
    intro n
    rw [protectGo_pos_snd n hm, fenceGo_pos hm, ih (n + 1)]
  | h2 c cs hm ih =>
    intro n
    rw [protectGo_neg_snd n hm, fenceGo_neg hm]
    exact ih n

theorem restoredTo_saturated : ∀ s n k, n + (protectGo s 0 n).2.length ≤ k →
    restoredTo k s 0 n = s := by
  intro s
  induction s using protectInd with
  | h0 => intro n k _; rfl
  | h1 s m rest hm ih =>
    intro n k hk
    obtain ⟨hs, _, _, _⟩ := matchFence_split hm
    rw [protectGo_pos_snd n hm] at hk
    simp only [List.length_cons] at hk
    rw [restoredTo_pos k n hm, if_pos (by omega), ih (n + 1) k (by omega)]
    exact hs.symm
  | h2 c cs hm ih =>
    intro n k hk
    rw [protectGo_neg_snd n hm] at hk
    rw [restoredTo_neg k n hm, ih n k hk]

/-- One pass of the restoration loop moves the partially restored text one
index forward. -/
theorem restore_step : ∀ s, Clean s → ∀ n k b, n ≤ k →
    ((protectGo s 0 n).2)[k - n]? = some b →
    replaceAll (ph k) b (restoredTo k s 0 n) = restoredTo (k + 1) s 0 n := by
  intro s
  induction s using protectInd with
  | h0 =>
    intro _ n k b _ hget
    simp [protectGo] at hget
  | h1 s m rest hm ih =>
    intro hcl n k b hnk hget
    obtain ⟨hs, hne, hf3, hnl⟩ := matchFence_split hm
    have hclr : Clean rest := by
      rw [hs] at hcl
      exact hcl.right
    rw [protectGo_pos_snd n hm] at hget
    rw [restoredTo_pos k n hm, restoredTo_pos (k + 1) n hm]
    by_cases hnk' : n = k
    · subst hnk'
      simp only [Nat.sub_self, List.getElem?_cons_zero, Option.some.injEq] at hget
      subst hget
      rw [if_neg (by omega), if_pos (by omega)]
      rw [restoredTo_eq_protected rest (n + 1) n (by omega),
        restoredTo_eq_protected rest (n + 1) (n + 1) (by omega)]
      rw [replaceAll_self_append _ _ _ (ph_ne_nil n)]
      rw [replaceAll_of_not_hasSub (ph_not_in_protected rest hclr (n + 1) n (by omega))]
    · have hnlt : n < k := by omega
      rw [if_pos hnlt, if_pos (by omega)]
      have hnosub : hasSub (ph k) m = false := by
        cases hv : hasSub (ph k) m with
        | false => rfl
        | true =>
          have h2 := hcl k
          rw [hs, hasSub_append_left rest hv] at h2
          exact absurd h2 (by simp)
      have hsufm : m = [] ∨ IsSuf [Char.ofNat 96] m := by
        right
        obtain ⟨v, hv⟩ := hnl
        refine ⟨v ++ ("\n``".data), ?_⟩
        rw [hv, show nlFence = ("\n``".data) ++ [Char.ofNat 96] from by decide,
          List.append_assoc]
      rw [replaceAll_append (bt_not_mem_ph k) m hnosub hsufm]
      congr 1
      refine ih hclr (n + 1) k b (by omega) ?_
      have hidx : k - n = (k - (n + 1)) + 1 := by omega
      rw [hidx] at hget
      simpa using hget
  | h2 c cs hm ih =>
    intro hcl n k b hnk hget
    rw [protectGo_neg_snd n hm] at hget
    rw [restoredTo_neg k n hm, restoredTo_neg (k + 1) n hm]
    have hnot : stripPfx (ph k) (c :: restoredTo k cs 0 n) = none := by
      rw [stripPfx_none_iff]
      intro hpre
      obtain ⟨r, hr⟩ := hpre
      rw [ph_head] at hr
      simp only [List.cons_append, List.cons.injEq] at hr
      obtain ⟨hc, hr2⟩ := hr
      have hw : IsPre (phTail k) cs :=
        ph_pre_restored cs hcl.tail n k ['C'] (phTail k) hnk (ph_head k) (by simp)
          (phTail_ne_nil k) ⟨r, hr2⟩
      obtain ⟨r2, hr3⟩ := hw
      have hp2 : IsPre (ph k) (c :: cs) := ⟨r2, by rw [ph_head, hr3, hc]; rfl⟩
      have h1 := hasSub_of_pre hp2
      have h2 := hcl k
      rw [h2] at h1
      exact absurd h1 (by simp)
    rw [replaceAll_neg b hnot, ih hcl.tail n k b hnk hget]

theorem restoreGo_drop (s : List Char) (hcl : Clean s) :
    ∀ d j, (protectGo s 0 0).2.length - j ≤ d →
    restoreGo (restoredTo j s 0 0) (((protectGo s 0 0).2).drop j) j = s := by
  intro d
  induction d with
  | zero =>
    intro j hj
    rw [List.drop_eq_nil_of_le (by omega)]
    exact restoredTo_saturated s 0 j (by omega)
  | succ d ih =>
    intro j hj
    by_cases hlt : j < (protectGo s 0 0).2.length
    · have hb : ((protectGo s 0 0).2)[j]? = some ((protectGo s 0 0).2)[j] :=
        List.getElem?_eq_getElem hlt
      rw [List.drop_eq_getElem_cons hlt]
      show restoreGo (replaceAll (ph j) _ (restoredTo j s 0 0)) _ (j + 1) = s
      rw [restore_step s hcl 0 j _ (by omega) hb]
      exact ih (j + 1) (by omega)
    · rw [List.drop_eq_nil_of_le (by omega)]
      exact restoredTo_saturated s 0 j (by omega)

theorem clean_of_short {s : List Char} (h : s.length < 23) : Clean s := by
  intro j
  cases hv : hasSub (ph j) s with
  | false => rfl
  | true =>
    have h1 := hasSub_length hv
    have h2 := ph_length_ge j
    omega

/-- C1 (amended): for every text that nowhere contains a placeholder token
`CODEBLOCK_<i>_PLACEHOLDER`, restoring the protected text with the block list
produced by protection yields the text back. -/
theorem restore_protect_roundtrip (s : List Char) (hcl : Clean s) :
    restore_code_blocks (protect_code_blocks s).1 (protect_code_blocks s).2 = s := by
  show restoreGo (protect_code_blocks s).1 (protect_code_blocks s).2 0 = s
  have h1 : (protect_code_blocks s).1 = restoredTo 0 s 0 0 :=
    (restoredTo_eq_protected s 0 0 le_rfl).symm
  have h2 : (protect_code_blocks s).2 = ((protectGo s 0 0).2).drop 0 := rfl
  rw [h1, h2]
  exact restoreGo_drop s hcl ((protectGo s 0 0).2.length) 0 (by omega)

/-- Witness for the amended C1 at a concrete one-fence text. -/
theorem restore_protect_roundtrip_witness :
    Clean (("a\n```py\nx\n```\nb").data) ∧
    restore_code_blocks (protect_code_blocks (("a\n```py\nx\n```\nb").data)).1
        (protect_code_blocks (("a\n```py\nx\n```\nb").data)).2 =
      ("a\n```py\nx\n```\nb").data :=
  ⟨clean_of_short (by decide),
    restore_protect_roundtrip (("a\n```py\nx\n```\nb").data) (clean_of_short (by decide))⟩

/-- Counterexample to C1 as stated: this text's only fenced block has content
`x`, free of placeholder tokens, yet the placeholder token in the surrounding
text is also replaced during restoration, so the round-trip is not the
identity. -/
theorem restore_protect_cex :
    (∀ b ∈ (protect_code_blocks (("CODEBLOCK_0_PLACEHOLDER\n```\nx\n```").data)).2,
        ∀ j : Nat, hasSub (ph j) b = false) ∧
    restore_code_blocks
        (protect_code_blocks (("CODEBLOCK_0_PLACEHOLDER\n```\nx\n```").data)).1
        (protect_code_blocks (("CODEBLOCK_0_PLACEHOLDER\n```\nx\n```").data)).2 ≠
      ("CODEBLOCK_0_PLACEHOLDER\n```\nx\n```").data := by
  constructor
  · intro b hb j
    have hbl : b = ("```\nx\n```").data := by
      have h2 : (protect_code_blocks (("CODEBLOCK_0_PLACEHOLDER\n```\nx\n```").data)).2 =
          [("```\nx\n```").data] := by decide
      rw [h2] at hb
      simpa using hb
    rw [hbl]
    exact clean_of_short (by decide) j
  · decide

/-- C10: restoring with an empty block list is the identity on the content
and cannot fail. -/
theorem restore_empty_blocks (content : List Char) :
    restore_code_blocks content [] = content := rfl

inductive TransformResult where
  | protectedText (content : List Char) (blocks : List (List Char))
  | restoredText (content : List Char)
  | valueError (msg : String)
deriving DecidableEq

/-- Models `code_block_transform` from helpers.py: in protect mode it rebuilds the
block list; in restore mode it requires the block list and raises a
`ValueError` (modelled as `valueError`) when none is supplied; any other mode
also raises. -/
def code_block_transform (content : List Char) (code_blocks : Option (List (List Char)))
    (mode : String) : TransformResult :=
  if mode = "protect" then
    TransformResult.protectedText (protect_code_blocks content).1 (protect_code_blocks content).2
  else if mode = "restore" then
    match code_blocks with
    | none => TransformResult.valueError "code_blocks must be provided in restore mode"
    | some bs => TransformResult.restoredText (restore_code_blocks content bs)
  else TransformResult.valueError "mode must be protect or restore"

/-- C5: invoking the restore transform with no placeholder blocks supplied
raises a `ValueError` instead of silently succeeding. -/
theorem code_block_transform_restore_none (content : List Char) :
    code_block_transform content none "restore" =
      TransformResult.valueError "code_blocks must be provided in restore mode" := by
  simp [code_block_transform]

def interleave : List (List Char) → List (List Char) → List Char
  | [], _ => []
  | t :: _, [] => t
  | t :: ts, m :: ms => t ++ m ++ interleave ts ms

/-- The placeholder tokens of indices `n, n+1, …, n+k-1`, in order. -/
def phSeq : Nat → Nat → List (List Char)
  | _, 0 => []
  | n, k + 1 => ph n :: phSeq (n + 1) k

theorem interleave_cons_head (c : Char) (t0 : List Char) (ts : List (List Char)) :
    ∀ Ms, interleave ((c :: t0) :: ts) Ms = c :: interleave (t0 :: ts) Ms := by
  intro Ms
  cases Ms with
  | nil => rfl
  | cons m ms => rfl

theorem protect_decomp : ∀ s n, ∃ ts : List (List Char), ts ≠ [] ∧
    s = interleave ts (fenceGo s 0) ∧
    (protectGo s 0 n).1 = interleave ts (phSeq n (fenceGo s 0).length) := by
  intro s
  induction s using protectInd with
  | h0 =>
    intro n
    exact ⟨[[]], by simp, rfl, rfl⟩
  | h1 s m rest hm ih =>
    intro n
    obtain ⟨hs, hne, _, _⟩ := matchFence_split hm
    obtain ⟨ts, hts, hrest, hprot⟩ := ih (n + 1)
    refine ⟨[] :: ts, by simp, ?_, ?_⟩
    · rw [fenceGo_pos hm]
      show s = [] ++ m ++ interleave ts (fenceGo rest 0)
      rw [← hrest]
      simpa using hs
    · rw [fenceGo_pos hm, protectGo_pos_fst n hm]
      simp only [List.length_cons]
      show ph n ++ (protectGo rest 0 (n + 1)).1 =
        [] ++ ph n ++ interleave ts (phSeq (n + 1) (fenceGo rest 0).length)
      rw [← hprot]
      simp
  | h2 c cs hm ih =>
    intro n
    obtain ⟨ts, hts, hcs, hprot⟩ := ih n
    cases ts with
    | nil => exact absurd rfl hts
    | cons t0 ts' =>
      refine ⟨(c :: t0) :: ts', by simp, ?_, ?_⟩
      · rw [fenceGo_neg hm, interleave_cons_head, ← hcs]
      · rw [fenceGo_neg hm, protectGo_neg_fst n hm, interleave_cons_head, ← hprot]

/-- C2: protection replaces the fence matches, first to last, with the
placeholder tokens of indices `0 … N-1` in order, and the returned block list
is exactly the list of the `N` matched texts in that order. -/
theorem protect_structure (s : List Char) :
    ∃ ts : List (List Char),
      (protect_code_blocks s).2 = fenceMatches s ∧
      (protect_code_blocks s).2.length = (fenceMatches s).length ∧
      s = interleave ts (fenceMatches s) ∧
      (protect_code_blocks s).1 = interleave ts (phSeq 0 (fenceMatches s).length) := by
  obtain ⟨ts, _, hs, hp⟩ := protect_decomp s 0
  have hb : (protect_code_blocks s).2 = fenceMatches s := protect_blocks_eq s 0
  exact ⟨ts, hb, by rw [hb], hs, hp⟩

/-!
Notice insertion. helpers.py holds a theme-to-template mapping
`notice_formats` with a `"default"` entry used as the `.get` fallback;
`add_translation_notice` renders the template with upper-cased language codes
and inserts it after the first level-1 heading line, else after a leading
frontmatter block, else at the very top. plugin.py's method of the same name
has no heading rule: frontmatter, else top.
-/

def materialTpl : List Char :=
  ("\n!!! note\n    This document was automatically translated from \x7bsource_lang\x7d to \x7btarget_lang\x7d.\n\n").data

def defaultTpl : List Char :=
  ("\n>NOTE:\nThis document was automatically translated from \x7bsource_lang\x7d to \x7btarget_lang\x7d.\n\n").data

/-- The `notice_formats` dict of helpers.py. -/
def notice_formats (k : String) : Option (List Char) :=
  if k = "material" then some materialTpl
  else if k = "default" then some defaultTpl
  else none

/-- Models `notice_formats.get(theme_name, notice_formats["default"])`. -/
def noticeTemplate (theme_name : String) : List Char :=
  (notice_formats theme_name).getD defaultTpl

/-- Python `str.upper` restricted to ASCII, which covers language codes. -/
def upperChar (c : Char) : Char :=
  if 'a' ≤ c ∧ c ≤ 'z' then Char.ofNat (c.toNat - 32) else c

def pyUpper (s : List Char) : List Char := s.map upperChar

/-- Models `notice_format.format(source_lang=…, target_lang=…)`: substitute the two
named fields (left to right, as `str.format` does; these templates contain
each field once and the codes contain no field text). -/
def renderNotice (tpl sl tl : List Char) : List Char :=
  replaceAll (("\x7btarget_lang\x7d").data) (pyUpper tl)
    (replaceAll (("\x7bsource_lang\x7d").data) (pyUpper sl) tpl)

/-- The heading pattern `r"(^# .+\n)"` (MULTILINE) matched at the start of a
line: `"# "`, at least one non-newline character, then the newline. -/
def matchH1At (s : List Char) : Option (List Char × List Char) :=
  match stripPfx (("# ").data) s with
  | none => none
  | some t =>
    let body := t.takeWhile (fun c => c != '\n')
    match stripPfx ['\n'] (t.dropWhile (fun c => c != '\n')) with
    | none => none
    | some rest => if body = [] then none else some ('#' :: ' ' :: (body ++ ['\n']), rest)

/-- Models `re.search` of the heading pattern: try each line start, leftmost first;
returns the document prefix up to and including the matched line, and the
rest. -/
def searchH1Go : List Char → Bool → Option (List Char × List Char)
  | [], _ => none
  | c :: cs, true =>
    match matchH1At (c :: cs) with
    | some (line, rest) => some (line, rest)
    | none => (searchH1Go cs (c == '\n')).map (fun p => (c :: p.1, p.2))
  | c :: cs, false => (searchH1Go cs (c == '\n')).map (fun p => (c :: p.1, p.2))

def searchH1 (s : List Char) : Option (List Char × List Char) := searchH1Go s true

def fmOpen : List Char := "---\n".data

def fmDelim : List Char := "\n---\n".data

/-- Earliest split of `t` as `inner ++ "\n---\n" ++ rest` (the non-greedy
`.*?` of the frontmatter pattern). -/
def findDelim : List Char → Option (List Char × List Char)
  | [] => none
  | c :: cs =>
    match stripPfx fmDelim (c :: cs) with
    | some r => some ([], r)
    | none => (findDelim cs).map (fun p => (c :: p.1, p.2))

/-- Models `re.match(r"^(---\n.*?\n---\n)", content, re.DOTALL)`: the whole matched
frontmatter block and the remainder. -/
def matchFrontmatter (s : List Char) : Option (List Char × List Char) :=
  match stripPfx fmOpen s with
  | none => none
  | some t =>
    match findDelim t with
    | some (inner, rest) => some (fmOpen ++ inner ++ fmDelim, rest)
    | none => none

/-- Models `add_translation_notice` from helpers.py. -/
def add_translation_notice (content sl tl : List Char) (theme_name : String) : List Char :=
  let notice := renderNotice (noticeTemplate theme_name) sl tl
  match searchH1 content with
  | some (pre, post) => pre ++ notice ++ post
  | none =>
    match matchFrontmatter content with
    | some (fm, rest) => fm ++ notice ++ rest
    | none => notice ++ content

/-- The theme-conditional template choice of
`TranslatePlugin.add_translation_notice` (plugin.py): an if/else on
`self.theme_name`, not a dict lookup. -/
def plugin_notice_format (theme_name : String) : List Char :=
  if theme_name = "material" then materialTpl else defaultTpl

/-- Models `TranslatePlugin.add_translation_notice` from plugin.py, the inserter the
build pipeline (`on_pre_build`) actually calls: frontmatter anchor or top,
with no heading rule. -/
def plugin_add_translation_notice (theme_name : String) (content sl tl : List Char) :
    List Char :=
  let notice := renderNotice (plugin_notice_format theme_name) sl tl
  match matchFrontmatter content with
  | some (fm, rest) => fm ++ notice ++ rest
  | none => notice ++ content

/-!
The insertion-anchor requirement, written from the specification: the first
level-1 heading line anywhere in the document; else a minimal leading
frontmatter block; else the very beginning.
-/

/-- A line of the form `"# "` then a non-empty newline-free rest, with its
trailing newline. -/
def IsH1Line (line : List Char) : Prop :=
  ∃ body, line = '#' :: ' ' :: (body ++ ['\n']) ∧ body ≠ [] ∧ '\n' ∉ body

/-- Holds when `p` ends at a line start of the document: the start itself or just after
a newline. -/
def AtLineStart (p : List Char) : Prop := p = [] ∨ ∃ q, p = q ++ ['\n']

/-- Line-start positions relative to a scan flag: when the flag is set the
empty prefix also counts. -/
def LS (st : Bool) (p : List Char) : Prop := (st = true ∧ p = []) ∨ ∃ q, p = q ++ ['\n']

def NoH1 (content : List Char) : Prop :=
  ¬ ∃ p line post, content = p ++ line ++ post ∧ AtLineStart p ∧ IsH1Line line

/-- Holds when `pre` consists of everything up to and including the first level-1
heading line of the document. -/
def FirstH1Anchor (content pre : List Char) : Prop :=
  ∃ p line post, pre = p ++ line ∧ content = p ++ line ++ post ∧ AtLineStart p ∧
    IsH1Line line ∧
    ∀ p2 line2 post2, content = p2 ++ line2 ++ post2 → AtLineStart p2 → IsH1Line line2 →
      p.length ≤ p2.length

def NoFM (content : List Char) : Prop :=
  ¬ ∃ inner rest, content = fmOpen ++ inner ++ fmDelim ++ rest

/-- Holds when `pre` is a leading frontmatter block of the document with minimal
(non-greedy) interior. -/
def FMAnchor (content pre : List Char) : Prop :=
  ∃ inner rest, pre = fmOpen ++ inner ++ fmDelim ∧ content = pre ++ rest ∧
    ∀ inner2 rest2, content = fmOpen ++ inner2 ++ fmDelim ++ rest2 →
      inner.length ≤ inner2.length

/-- The insertion point dictated by the specification's precedence. -/
def AnchorSpec (content pre : List Char) : Prop :=
  FirstH1Anchor content pre ∨
  (NoH1 content ∧ FMAnchor content pre) ∨
  (NoH1 content ∧ NoFM content ∧ pre = [])

theorem LS_true_iff {p : List Char} : LS true p ↔ AtLineStart p := by
  constructor
  · rintro (⟨_, hp⟩ | hq)
    · exact Or.inl hp
    · exact Or.inr hq
  · rintro (hp | hq)
    · exact Or.inl ⟨rfl, hp⟩
    · exact Or.inr hq

theorem LS_cons {st : Bool} {c : Char} {p : List Char} :
    LS st (c :: p) ↔ LS (c == '\n') p := by
  constructor
  · rintro (⟨_, hp⟩ | ⟨q, hq⟩)
    · simp at hp
    · cases q with
      | nil =>
        simp only [List.nil_append, List.cons.injEq] at hq
        exact Or.inl ⟨by simp [hq.1], hq.2⟩
      | cons d q2 =>
        simp only [List.cons_append, List.cons.injEq] at hq
        exact Or.inr ⟨q2, hq.2⟩
  · rintro (⟨hc, hp⟩ | ⟨q, hq⟩)
    · subst hp
      refine Or.inr ⟨[], ?_⟩
      have : c = '\n' := by simpa using hc
      rw [this]
      rfl
    · exact Or.inr ⟨c :: q, by rw [hq]; rfl⟩

theorem LS_false_nil (h : LS false ([] : List Char)) : False := by
  rcases h with ⟨hft, _⟩ | ⟨q, hq⟩
  · simp at hft
  · simp at hq

theorem takeWhile_no_nl : ∀ body rest : List Char, '\n' ∉ body →
    (body ++ '\n' :: rest).takeWhile (fun c => c != '\n') = body ∧
    (body ++ '\n' :: rest).dropWhile (fun c => c != '\n') = '\n' :: rest := by
  intro body
  induction body with
  | nil =>
    intro rest _
    constructor <;> simp [List.takeWhile, List.dropWhile]
  | cons b bs ih =>
    intro rest hnl
    have hb : (b != '\n') = true := by
      simp only [bne_iff_ne, ne_eq]
      intro hbe
      exact hnl (by simp [hbe])
    obtain ⟨h1, h2⟩ := ih rest (fun hmem => hnl (by simp [hmem]))
    constructor
    · simp [List.takeWhile_cons, hb, h1]
    · simp [List.dropWhile_cons, hb, h2]

theorem matchH1At_some {s line rest : List Char} (h : matchH1At s = some (line, rest)) :
    s = line ++ rest ∧ IsH1Line line := by
  unfold matchH1At at h
  cases h1 : stripPfx (("# ").data) s with
  | none => rw [h1] at h; simp at h
  | some t =>
    rw [h1] at h
    simp only at h
    cases h2 : stripPfx ['\n'] (t.dropWhile (fun c => c != '\n')) with
    | none => rw [h2] at h; simp at h
    | some rest2 =>
      rw [h2] at h
      simp only at h
      by_cases hb : t.takeWhile (fun c => c != '\n') = []
      · rw [if_pos hb] at h
        simp at h
      · rw [if_neg hb] at h
        simp only [Option.some.injEq, Prod.mk.injEq] at h
        obtain ⟨hl, hr⟩ := h
        subst hl
        constructor
        · have hs : s = ['#', ' '] ++ t := stripPfx_some_iff.mp h1
          have ht : t = t.takeWhile (fun c => c != '\n') ++ ('\n' :: rest2) := by
            conv_lhs => rw [← List.takeWhile_append_dropWhile
              (p := fun c => c != '\n') (l := t)]
            rw [stripPfx_some_iff.mp h2]
            simp
          rw [← hr, hs]
          conv_lhs => rw [ht]
          simp
        · refine ⟨t.takeWhile (fun c => c != '\n'), rfl, hb, ?_⟩
          intro hmem
          have := List.mem_takeWhile_imp hmem
          simp at this

theorem matchH1At_complete {body : List Char} (rest : List Char) (hb : body ≠ [])
    (hnl : '\n' ∉ body) :
    matchH1At (('#' :: ' ' :: (body ++ ['\n'])) ++ rest) =
      some ('#' :: ' ' :: (body ++ ['\n']), rest) := by
  obtain ⟨htw, hdw⟩ := takeWhile_no_nl body rest hnl
  have hshape : ('#' :: ' ' :: (body ++ ['\n'])) ++ rest =
      (("# ").data) ++ (body ++ '\n' :: rest) := by simp
  rw [hshape]
  unfold matchH1At
  rw [stripPfx_self_append]
  simp only
  rw [hdw, show stripPfx ['\n'] ('\n' :: rest) = some rest from
    stripPfx_self_append ['\n'] rest]
  simp only
  rw [htw, if_neg hb]

theorem searchH1Go_some : ∀ s st pre post, searchH1Go s st = some (pre, post) →
    s = pre ++ post ∧
    ∃ p line, pre = p ++ line ∧ IsH1Line line ∧ LS st p ∧
      ∀ p2 line2 post2, s = p2 ++ line2 ++ post2 → IsH1Line line2 → LS st p2 →
        p.length ≤ p2.length := by
  intro s
  induction s with
  | nil => intro st pre post h; simp [searchH1Go] at h
  | cons c cs ih =>
    intro st pre post h
    cases st with
    | true =>
      cases hm : matchH1At (c :: cs) with
      | some pr =>
        obtain ⟨line, rest⟩ := pr
        simp only [searchH1Go, hm, Option.some.injEq, Prod.mk.injEq] at h
        obtain ⟨hpre, hpost⟩ := h
        subst hpre
        subst hpost
        obtain ⟨hsplit, hline⟩ := matchH1At_some hm
        refine ⟨hsplit, [], line, by simp, hline, Or.inl ⟨rfl, rfl⟩, ?_⟩
        intro p2 line2 post2 _ _ _
        simp
      | none =>
        simp only [searchH1Go, hm] at h
        cases hs2 : searchH1Go cs (c == '\n') with
        | none => rw [hs2] at h; simp at h
        | some pr2 =>
          obtain ⟨pre2, post2⟩ := pr2
          rw [hs2] at h
          simp only [Option.map_some', Option.some.injEq, Prod.mk.injEq] at h
          obtain ⟨hpre, hpost⟩ := h
          subst hpre
          subst hpost
          obtain ⟨hsplit2, p', line', hp', hline', hls', hmin'⟩ := ih (c == '\n') pre2 post2 hs2
          refine ⟨by rw [hsplit2]; rfl, c :: p', line', by rw [hp']; rfl, hline',
            LS_cons.mpr hls', ?_⟩
          intro p2 line2 post2' hdec hline2 hls2
          cases p2 with
          | nil =>
            exfalso
            simp only [List.nil_append] at hdec
            obtain ⟨body, hlb, hbne, hbnl⟩ := hline2
            rw [hlb] at hdec
            have hcmp := matchH1At_complete post2' hbne hbnl
            rw [← hdec, hm] at hcmp
            simp at hcmp
          | cons d p2' =>
            simp only [List.cons_append, List.cons.injEq] at hdec
            obtain ⟨hdc, hdec2⟩ := hdec
            subst hdc
            have hls2' : LS (c == '\n') p2' := LS_cons.mp hls2
            have := hmin' p2' line2 post2' hdec2 hline2 hls2'
            simp only [List.length_cons]
            omega
    | false =>
      simp only [searchH1Go] at h
      cases hs2 : searchH1Go cs (c == '\n') with
      | none => rw [hs2] at h; simp at h
      | some pr2 =>
        obtain ⟨pre2, post2⟩ := pr2
        rw [hs2] at h
        simp only [Option.map_some', Option.some.injEq, Prod.mk.injEq] at h
        obtain ⟨hpre, hpost⟩ := h
        subst hpre
        subst hpost
        obtain ⟨hsplit2, p', line', hp', hline', hls', hmin'⟩ := ih (c == '\n') pre2 post2 hs2
        refine ⟨by rw [hsplit2]; rfl, c :: p', line', by rw [hp']; rfl, hline',
          LS_cons.mpr hls', ?_⟩
        intro p2 line2 post2' hdec hline2 hls2
        cases p2 with
        | nil => exact absurd hls2 (fun h0 => LS_false_nil h0)
        | cons d p2' =>
          simp only [List.cons_append, List.cons.injEq] at hdec
          obtain ⟨hdc, hdec2⟩ := hdec
          subst hdc
          have hls2' : LS (c == '\n') p2' := LS_cons.mp hls2
          have := hmin' p2' line2 post2' hdec2 hline2 hls2'
          simp only [List.length_cons]
          omega

theorem searchH1Go_none : ∀ s st, searchH1Go s st = none →
    ∀ p line post, s = p ++ line ++ post → IsH1Line line → LS st p → False := by
  intro s
  induction s with
  | nil =>
    intro st _ p line post hdec hline _
    obtain ⟨body, hlb, _, _⟩ := hline
    rw [hlb] at hdec
    have := congrArg List.length hdec
    simp at this
    omega
  | cons c cs ih =>
    intro st h p line post hdec hline hls
    cases st with
    | true =>
      cases hm : matchH1At (c :: cs) with
      | some pr =>
        obtain ⟨line0, rest0⟩ := pr
        simp [searchH1Go, hm] at h
      | none =>
        simp only [searchH1Go, hm] at h
        have hnone : searchH1Go cs (c == '\n') = none := by
          cases hs2 : searchH1Go cs (c == '\n') with
          | none => rfl
          | some pr2 => rw [hs2] at h; simp at h
        cases p with
        | nil =>
          simp only [List.nil_append] at hdec
          obtain ⟨body, hlb, hbne, hbnl⟩ := hline
          rw [hlb] at hdec
          have hcmp := matchH1At_complete post hbne hbnl
          rw [← hdec, hm] at hcmp
          simp at hcmp
        | cons d p' =>
          simp only [List.cons_append, List.cons.injEq] at hdec
          obtain ⟨hdc, hdec2⟩ := hdec
          subst hdc
          exact ih (c == '\n') hnone p' line post hdec2 hline (LS_cons.mp hls)
    | false =>
      simp only [searchH1Go] at h
      have hnone : searchH1Go cs (c == '\n') = none := by
        cases hs2 : searchH1Go cs (c == '\n') with
        | none => rfl
        | some pr2 => rw [hs2] at h; simp at h
      cases p with
      | nil => exact LS_false_nil hls
      | cons d p' =>
        simp only [List.cons_append, List.cons.injEq] at hdec
        obtain ⟨hdc, hdec2⟩ := hdec
        subst hdc
        exact ih (c == '\n') hnone p' line post hdec2 hline (LS_cons.mp hls)

theorem findDelim_some : ∀ t inner rest, findDelim t = some (inner, rest) →
    t = inner ++ fmDelim ++ rest ∧
    ∀ inner2 rest2, t = inner2 ++ fmDelim ++ rest2 → inner.length ≤ inner2.length := by
  intro t
  induction t with
  | nil => intro inner rest h; simp [findDelim] at h
  | cons c cs ih =>
    intro inner rest h
    simp only [findDelim] at h
    cases hs : stripPfx fmDelim (c :: cs) with
    | some r =>
      rw [hs] at h
      simp only [Option.some.injEq, Prod.mk.injEq] at h
      obtain ⟨hi, hr⟩ := h
      subst hi
      subst hr
      refine ⟨by simpa using stripPfx_some_iff.mp hs, ?_⟩
      intro inner2 rest2 _
      simp
    | none =>
      rw [hs] at h
      cases hf : findDelim cs with
      | none => rw [hf] at h; simp at h
      | some pr =>
        obtain ⟨i2, r2⟩ := pr
        rw [hf] at h
        simp only [Option.map_some', Option.some.injEq, Prod.mk.injEq] at h
        obtain ⟨hi, hr⟩ := h
        subst hi
        subst hr
        obtain ⟨hsplit, hmin⟩ := ih i2 r2 hf
        refine ⟨by rw [hsplit]; rfl, ?_⟩
        · intro inner2 rest2 hdec
          cases inner2 with
          | nil =>
            exfalso
            simp only [List.nil_append] at hdec
            rw [stripPfx_none_iff] at hs
            exact hs ⟨rest2, hdec⟩
          | cons d i2' =>
            simp only [List.cons_append, List.cons.injEq] at hdec
            obtain ⟨_, hdec2⟩ := hdec
            have := hmin i2' rest2 hdec2
            simp only [List.length_cons]
            omega

theorem findDelim_none : ∀ t, findDelim t = none →
    ∀ inner rest, t ≠ inner ++ fmDelim ++ rest := by
  intro t
  induction t with
  | nil =>
    intro _ inner rest hdec
    have := congrArg List.length hdec
    simp [fmDelim] at this
    omega
  | cons c cs ih =>
    intro h inner rest hdec
    simp only [findDelim] at h
    cases hs : stripPfx fmDelim (c :: cs) with
    | some r => rw [hs] at h; simp at h
    | none =>
      rw [hs] at h
      have hnone : findDelim cs = none := by
        cases hf : findDelim cs with
        | none => rfl
        | some pr => rw [hf] at h; simp at h
      cases inner with
      | nil =>
        simp only [List.nil_append] at hdec
        rw [stripPfx_none_iff] at hs
        exact hs ⟨rest, hdec⟩
      | cons d i2' =>
        simp only [List.cons_append, List.cons.injEq] at hdec
        exact ih hnone i2' rest hdec.2

theorem matchFrontmatter_some {s fm rest : List Char}
    (h : matchFrontmatter s = some (fm, rest)) :
    s = fm ++ rest ∧ FMAnchor s fm := by
  unfold matchFrontmatter at h
  cases h1 : stripPfx fmOpen s with
  | none => rw [h1] at h; simp at h
  | some t =>
    rw [h1] at h
    simp only at h
    cases h2 : findDelim t with
    | none => rw [h2] at h; simp at h
    | some pr =>
      obtain ⟨inner, r2⟩ := pr
      rw [h2] at h
      simp only [Option.some.injEq, Prod.mk.injEq] at h
      obtain ⟨hf, hr⟩ := h
      subst hf
      subst hr
      obtain ⟨hsplit, hmin⟩ := findDelim_some t inner r2 h2
      have hst : s = fmOpen ++ t := stripPfx_some_iff.mp h1
      constructor
      · rw [hst, hsplit]
        simp [List.append_assoc]
      · refine ⟨inner, r2, rfl, ?_, ?_⟩
        · rw [hst, hsplit]
          simp [List.append_assoc]
        · intro inner2 rest2 hdec
          refine hmin inner2 rest2 ?_
          have hcc : fmOpen ++ t = fmOpen ++ (inner2 ++ fmDelim ++ rest2) := by
            rw [← hst, hdec]
            simp [List.append_assoc]
          exact List.append_cancel_left hcc

theorem matchFrontmatter_none {s : List Char} (h : matchFrontmatter s = none) : NoFM s := by
  rintro ⟨inner, rest, hdec⟩
  unfold matchFrontmatter at h
  cases h1 : stripPfx fmOpen s with
  | none =>
    rw [stripPfx_none_iff] at h1
    exact h1 ⟨inner ++ fmDelim ++ rest, by rw [hdec]; simp [List.append_assoc]⟩
  | some t =>
    rw [h1] at h
    simp only at h
    cases h2 : findDelim t with
    | some pr =>
      obtain ⟨i0, r0⟩ := pr
      rw [h2] at h
      simp at h
    | none =>
      have hst : s = fmOpen ++ t := stripPfx_some_iff.mp h1
      have ht : t = inner ++ fmDelim ++ rest := by
        have h3 : fmOpen ++ t = fmOpen ++ (inner ++ fmDelim ++ rest) := by
          rw [← hst, hdec]
          simp [List.append_assoc]
        exact List.append_cancel_left h3
      exact findDelim_none t h2 inner rest ht

/-- C3: `add_translation_notice` (helpers.py) always returns the input text
split at exactly one position with the rendered notice inserted there — after
the first level-1 heading line anywhere in the document, else after a leading
frontmatter block, else at the very beginning — leaving all other content
unchanged. -/
theorem add_translation_notice_spec (content sl tl : List Char) (theme_name : String) :
    ∃ pre post, content = pre ++ post ∧
      add_translation_notice content sl tl theme_name =
        pre ++ renderNotice (noticeTemplate theme_name) sl tl ++ post ∧
      AnchorSpec content pre := by
  cases hh : searchH1 content with
  | some pr =>
    obtain ⟨pre, post⟩ := pr
    obtain ⟨hsplit, p, line, hp, hline, hls, hmin⟩ := searchH1Go_some content true pre post hh
    refine ⟨pre, post, hsplit, by simp only [add_translation_notice, hh], ?_⟩
    left
    exact ⟨p, line, post, hp, by rw [← hp]; exact hsplit, LS_true_iff.mp hls, hline,
      fun p2 l2 po2 hd hal hl2 => hmin p2 l2 po2 hd hl2 (LS_true_iff.mpr hal)⟩
  | none =>
    have hnoh1 : NoH1 content := by
      rintro ⟨p, line, post, hdec, hal, hline⟩
      exact searchH1Go_none content true hh p line post hdec hline (LS_true_iff.mpr hal)
    cases hf : matchFrontmatter content with
    | some pr =>
      obtain ⟨fm, rest⟩ := pr
      obtain ⟨hsplit, hanchor⟩ := matchFrontmatter_some hf
      exact ⟨fm, rest, hsplit, by simp only [add_translation_notice, hh, hf],
        Or.inr (Or.inl ⟨hnoh1, hanchor⟩)⟩
    | none =>
      exact ⟨[], content, rfl, by simp only [add_translation_notice, hh, hf]; rfl,
        Or.inr (Or.inr ⟨hnoh1, matchFrontmatter_none hf, rfl⟩)⟩

/-- C9: the notice inserter the build pipeline actually invokes
(`TranslatePlugin.add_translation_notice`, called from `on_pre_build`) puts
the notice right after a leading frontmatter block when one exists and
otherwise at the very beginning; a level-1 heading is never an insertion
anchor. -/
theorem plugin_add_translation_notice_spec (theme_name : String)
    (content sl tl : List Char) :
    ∃ pre post, content = pre ++ post ∧
      plugin_add_translation_notice theme_name content sl tl =
        pre ++ renderNotice (plugin_notice_format theme_name) sl tl ++ post ∧
      (FMAnchor content pre ∨ (NoFM content ∧ pre = [])) := by
  cases hf : matchFrontmatter content with
  | some pr =>
    obtain ⟨fm, rest⟩ := pr
    obtain ⟨hsplit, hanchor⟩ := matchFrontmatter_some hf
    exact ⟨fm, rest, hsplit, by simp only [plugin_add_translation_notice, hf],
      Or.inl hanchor⟩
  | none =>
    exact ⟨[], content, rfl, by simp only [plugin_add_translation_notice, hf]; rfl,
      Or.inr ⟨matchFrontmatter_none hf, rfl⟩⟩

/-- C8: the template lookup is total — every theme identifier yields one of
the two templates — and any identifier absent from the mapping renders
through the `"default"` template, so the inserter behaves exactly as it does
for the `"default"` theme. -/
theorem notice_format_fallback (theme_name : String) :
    (noticeTemplate theme_name = materialTpl ∨ noticeTemplate theme_name = defaultTpl) ∧
    (theme_name ≠ "material" → theme_name ≠ "default" →
      noticeTemplate theme_name = defaultTpl ∧
      ∀ content sl tl, add_translation_notice content sl tl theme_name =
        add_translation_notice content sl tl "default") := by
  constructor
  · by_cases hm : theme_name = "material"
    · left
      simp [noticeTemplate, notice_formats, hm]
    · right
      by_cases hd : theme_name = "default"
      · simp [noticeTemplate, notice_formats, hm, hd]
      · simp [noticeTemplate, notice_formats, hm, hd]
  · intro hm hd
    have h1 : noticeTemplate theme_name = defaultTpl := by
      simp [noticeTemplate, notice_formats, hm, hd]
    have h2 : noticeTemplate "default" = defaultTpl := by
      simp [noticeTemplate, notice_formats]
    refine ⟨h1, ?_⟩
    intro content sl tl
    unfold add_translation_notice
    rw [h1, h2]

/-- Witness for C8 at the unregistered theme `"unknown_theme"`. -/
theorem notice_format_fallback_witness :
    ("unknown_theme" ≠ "material") ∧ ("unknown_theme" ≠ "default") ∧
    (noticeTemplate "unknown_theme" = defaultTpl ∧
      ∀ content sl tl, add_translation_notice content sl tl "unknown_theme" =
        add_translation_notice content sl tl "default") :=
  ⟨by decide, by decide,
    (notice_format_fallback "unknown_theme").2 (by decide) (by decide)⟩

/-!
Integrity checker (helpers.py `check_markdown_integrity`): per-kind counts by
regex scan — line-anchored `#+\s` headers, `` ``` `` fence markers halved,
inline links — compared between source and translated text; a difference
only emits a warning carrying both snapshots.
-/

/-- The characters of the Python `\s` class (and of `str.strip`), for ASCII
text. -/
def isPySpaceCh (c : Char) : Bool :=
  c == ' ' || c == '\t' || c == '\n' || c == '\r' || c == '\x0b' || c == '\x0c'

/-- Whether `r"^#+\s"` matches at this line start: a non-empty run of `#`
then one whitespace character. -/
def headerAt (s : List Char) : Bool :=
  !(s.takeWhile (fun c => c == '#')).isEmpty &&
    (match s.dropWhile (fun c => c == '#') with
     | [] => false
     | c :: _ => isPySpaceCh c)

/-- Models `len(re.findall(r"^#+\s", s, re.MULTILINE))`: one count per matching
line start. -/
def countHeadersGo : List Char → Bool → Nat
  | [], _ => 0
  | c :: cs, true => (if headerAt (c :: cs) then 1 else 0) + countHeadersGo cs (c == '\n')
  | c :: cs, false => countHeadersGo cs (c == '\n')

def countHeaders (s : List Char) : Nat := countHeadersGo s true

/-- Models `len(re.findall(r"```", s))`: non-overlapping fence markers, left to
right. -/
def countTripleGo : List Char → Nat → Nat
  | [], _ => 0
  | _ :: cs, skip + 1 => countTripleGo cs skip
  | c :: cs, 0 =>
    if (stripPfx fence3 (c :: cs)).isSome then 1 + countTripleGo cs 2
    else countTripleGo cs 0

def countTriple (s : List Char) : Nat := countTripleGo s 0

/-- The `\(.+?\)` part of the link pattern once one content character has
been consumed: scan to the first `)`, failing on a newline. -/
def parenScan : List Char → Option (List Char)
  | [] => none
  | c :: cs => if c == ')' then some cs else if c == '\n' then none else parenScan cs

/-- Models the pattern `\(.+?\)` matched against `t` (after the `](`): at least one non-newline
character, then the first `)`. -/
def matchParen : List Char → Option (List Char)
  | [] => none
  | c :: cs => if c == '\n' then none else parenScan cs

/-- The `.+?\]\(.+?\)` part after the opening `[`, with regex backtracking:
try each `](` whose parenthesis part completes, earliest first; a `]` that
cannot close stays content. -/
def linkScan : List Char → Bool → Option (List Char)
  | [], _ => none
  | c :: cs, seen =>
    if c == '\n' then none
    else if c == ']' && seen then
      match cs with
      | '(' :: cs2 =>
        match matchParen cs2 with
        | some rest => some rest
        | none => linkScan cs true
      | _ => linkScan cs true
    else linkScan cs true

/-- The link pattern `r"\[.+?\]\(.+?\)"` matched at the start of `s`;
returns the remainder after the match. -/
def matchLinkAt : List Char → Option (List Char)
  | '[' :: t => linkScan t false
  | _ => none

/-- Models `len(re.findall(r"\[.+?\]\(.+?\)", s))`: non-overlapping matches, left
to right. -/
def countLinksGo : List Char → Nat → Nat
  | [], _ => 0
  | _ :: cs, skip + 1 => countLinksGo cs skip
  | c :: cs, 0 =>
    match matchLinkAt (c :: cs) with
    | some rest => 1 + countLinksGo cs (cs.length - rest.length)
    | none => countLinksGo cs 0

def countLinks (s : List Char) : Nat := countLinksGo s 0

structure ElementCounts where
  headers : Nat
  code_blocks : Nat
  links : Nat
deriving DecidableEq

/-- One element-count snapshot: the `expected_elements` / `actual_elements`
dict of helpers.py, with the fence count divided by two. -/
def element_counts (s : List Char) : ElementCounts :=
  ⟨countHeaders s, countTriple s / 2, countLinks s⟩

/-- Models `check_markdown_integrity` from helpers.py: `none` when the two
snapshots agree, otherwise the warning carrying both snapshots. -/
def check_markdown_integrity (source translated : List Char) :
    Option (ElementCounts × ElementCounts) :=
  let expected := element_counts source
  let actual := element_counts translated
  if expected = actual then none else some (expected, actual)

/-- The element kinds on which a warning's two snapshots differ. -/
def mismatchedKinds (e a : ElementCounts) : List String :=
  (if e.headers = a.headers then [] else ["headers"]) ++
  (if e.code_blocks = a.code_blocks then [] else ["code_blocks"]) ++
  (if e.links = a.links then [] else ["links"])

theorem mem_mismatched_headers {e a : ElementCounts} :
    "headers" ∈ mismatchedKinds e a ↔ e.headers ≠ a.headers := by
  by_cases h1 : e.headers = a.headers <;> by_cases h2 : e.code_blocks = a.code_blocks <;>
    by_cases h3 : e.links = a.links <;> simp [mismatchedKinds, h1, h2, h3]

theorem mem_mismatched_code_blocks {e a : ElementCounts} :
    "code_blocks" ∈ mismatchedKinds e a ↔ e.code_blocks ≠ a.code_blocks := by
  by_cases h1 : e.headers = a.headers <;> by_cases h2 : e.code_blocks = a.code_blocks <;>
    by_cases h3 : e.links = a.links <;> simp [mismatchedKinds, h1, h2, h3]

theorem mem_mismatched_links {e a : ElementCounts} :
    "links" ∈ mismatchedKinds e a ↔ e.links ≠ a.links := by
  by_cases h1 : e.headers = a.headers <;> by_cases h2 : e.code_blocks = a.code_blocks <;>
    by_cases h3 : e.links = a.links <;> simp [mismatchedKinds, h1, h2, h3]

/-- C6: the Integrity Checker reports no mismatch exactly when the header
count, the halved fence-marker count and the link count all agree between
source and translated text; a reported warning carries both snapshots and
names exactly the kinds whose counts differ. -/
theorem check_markdown_integrity_spec (source translated : List Char) :
    (check_markdown_integrity source translated = none ↔
      (countHeaders source = countHeaders translated ∧
       countTriple source / 2 = countTriple translated / 2 ∧
       countLinks source = countLinks translated)) ∧
    ∀ e a, check_markdown_integrity source translated = some (e, a) →
      e = element_counts source ∧ a = element_counts translated ∧
      ("headers" ∈ mismatchedKinds e a ↔ countHeaders source ≠ countHeaders translated) ∧
      ("code_blocks" ∈ mismatchedKinds e a ↔
        countTriple source / 2 ≠ countTriple translated / 2) ∧
      ("links" ∈ mismatchedKinds e a ↔ countLinks source ≠ countLinks translated) := by
  have hiff : element_counts source = element_counts translated ↔
      (countHeaders source = countHeaders translated ∧
       countTriple source / 2 = countTriple translated / 2 ∧
       countLinks source = countLinks translated) := by
    constructor
    · intro h
      exact ⟨congrArg ElementCounts.headers h, congrArg ElementCounts.code_blocks h,
        congrArg ElementCounts.links h⟩
    · rintro ⟨h1, h2, h3⟩
      show ElementCounts.mk _ _ _ = ElementCounts.mk _ _ _
      rw [h1, h2, h3]
  constructor
  · constructor
    · intro h
      refine hiff.mp ?_
      by_cases he : element_counts source = element_counts translated
      · exact he
      · exfalso
        simp [check_markdown_integrity, he] at h
    · intro h3
      simp [check_markdown_integrity, hiff.mpr h3]
  · intro e a h
    by_cases he : element_counts source = element_counts translated
    · exfalso
      simp [check_markdown_integrity, he] at h
    · simp only [check_markdown_integrity, if_neg he, Option.some.injEq,
        Prod.mk.injEq] at h
      obtain ⟨h1, h2⟩ := h
      subst h1
      subst h2
      exact ⟨rfl, rfl, mem_mismatched_headers, mem_mismatched_code_blocks,
        mem_mismatched_links⟩

/-!
Translation dispatch (`translate_content` in translation_services/__init__.py)
and the three backend handlers. The remote services and third-party
converters are external collaborators; each handler receives the outcome of
its single remote call as a parameter, with `Except.error` standing for a
raised exception.
-/

/-- Python `str.lower` restricted to ASCII, which covers backend names. -/
def lowerChar (c : Char) : Char :=
  if 'A' ≤ c ∧ c ≤ 'Z' then Char.ofNat (c.toNat + 32) else c

def pyLower (s : List Char) : List Char := s.map lowerChar

inductive DispatchOutcome where
  | invoked (function_name : List Char)
  | configError (msg : List Char)
deriving DecidableEq

/-- Models `translate_content` from translation_services/__init__.py: dynamic import
of `mkdocs_translate_plugin.translation_services.<name>` and lookup of
`translate_with_<name>`, which succeed exactly for the three shipped backend
modules (saia, deepl, simpleen); a failed import or lookup is turned into
`ValueError("Unsupported translation service: …")` before any handler — and
hence any network activity — runs. -/
def translate_content (translation_service : List Char) : DispatchOutcome :=
  let name := pyLower translation_service
  if name = ("saia").data ∨ name = ("deepl").data ∨ name = ("simpleen").data then
    DispatchOutcome.invoked (("translate_with_").data ++ name)
  else
    DispatchOutcome.configError
      (("Unsupported translation service: ").data ++ translation_service)

/-- C7: a backend name outside the registered set makes the dispatcher fail
with the configuration error before any handler (hence any network activity)
runs; a registered name resolves to its handler. -/
theorem translate_content_dispatch (translation_service : List Char) :
    (pyLower translation_service ≠ ("saia").data →
     pyLower translation_service ≠ ("deepl").data →
     pyLower translation_service ≠ ("simpleen").data →
      translate_content translation_service =
        DispatchOutcome.configError
          (("Unsupported translation service: ").data ++ translation_service)) ∧
    ∀ name, pyLower translation_service = name →
      (name = ("saia").data ∨ name = ("deepl").data ∨ name = ("simpleen").data) →
      translate_content translation_service =
        DispatchOutcome.invoked (("translate_with_").data ++ name) := by
  constructor
  · intro h1 h2 h3
    simp [translate_content, h1, h2, h3]
  · intro name hname hreg
    subst hname
    unfold translate_content
    rw [if_pos hreg]

/-- Witness for C7: an unregistered name fails with the configuration error;
a registered name (case-insensitively) reaches its handler. -/
theorem translate_content_dispatch_witness :
    (pyLower (("chatgpt").data) ≠ ("saia").data ∧
     pyLower (("chatgpt").data) ≠ ("deepl").data ∧
     pyLower (("chatgpt").data) ≠ ("simpleen").data ∧
     translate_content (("chatgpt").data) =
       DispatchOutcome.configError
         ((("Unsupported translation service: ").data) ++ ("chatgpt").data)) ∧
    (pyLower (("DeepL").data) = ("deepl").data ∧
     translate_content (("DeepL").data) =
       DispatchOutcome.invoked ((("translate_with_").data) ++ ("deepl").data)) :=
  ⟨⟨by decide, by decide, by decide,
      (translate_content_dispatch (("chatgpt").data)).1 (by decide) (by decide) (by decide)⟩,
    ⟨by decide,
      (translate_content_dispatch (("DeepL").data)).2 (("deepl").data) (by decide)
        (by decide)⟩⟩

def thinkOpen : List Char := "<think>".data

def thinkClose : List Char := "</think>".data

def findCloseThink : List Char → Option (List Char × List Char)
  | [] => none
  | c :: cs =>
    match stripPfx thinkClose (c :: cs) with
    | some r => some ([], r)
    | none => (findCloseThink cs).map (fun p => (c :: p.1, p.2))

/-- Models `re.search(r"<think>(.*?)</think>", t, re.DOTALL)`: the full text
(group 0) of the first matched reasoning region. -/
def findThink : List Char → Option (List Char)
  | [] => none
  | c :: cs =>
    match stripPfx thinkOpen (c :: cs) with
    | some t =>
      match findCloseThink t with
      | some (body, _) => some (thinkOpen ++ body ++ thinkClose)
      | none => findThink cs
    | none => findThink cs

/-- The reasoning-stripping step of the saia handler: every occurrence equal
to the first matched region is removed. -/
def stripThink (t : List Char) : List Char :=
  match findThink t with
  | some g0 => replaceAll g0 [] t
  | none => t

/-- Python `str.strip()` for ASCII whitespace. -/
def pyStrip (s : List Char) : List Char :=
  ((s.dropWhile isPySpaceCh).reverse.dropWhile isPySpaceCh).reverse

/-- Models `translate_with_saia` (saia.py): protect code blocks, make the single
chat call (outcome passed in); a raised error is caught, logged, and the
handler returns the empty string; on success any reasoning region is
stripped, the code blocks are restored, the integrity check runs (warning
only) and the stripped text is returned. -/
def translate_with_saia (content : List Char)
    (remote : Except (List Char) (List Char)) : Except (List Char) (List Char) :=
  let protectedPair := protect_code_blocks content
  match remote with
  | Except.error _ => Except.ok []
  | Except.ok translated =>
    let t1 := stripThink translated
    let t2 := restore_code_blocks t1 protectedPair.2
    let _warn := check_markdown_integrity content t2
    Except.ok (pyStrip t2)

/-- Models `translate_with_deepl` (deepl.py): the markdown-to-HTML conversion and
the DeepL call are external; a conversion error returns the empty string, a
raised error in the translate call is caught and returns the empty string,
otherwise the translated HTML is converted back to markdown. -/
def translate_with_deepl (mdToHtml : Except (List Char) (List Char))
    (remote : Except (List Char) (List Char)) (htmlToMd : List Char → List Char) :
    Except (List Char) (List Char) :=
  match mdToHtml with
  | Except.error _ => Except.ok []
  | Except.ok _html =>
    match remote with
    | Except.error _ => Except.ok []
    | Except.ok translated_html => Except.ok (htmlToMd translated_html)

/-- Models `translate_with_simpleen` (simpleen.py): a failed request is re-raised
as `Exception("Simpleen API request failed: …")`, which leaves the handler
as an exception. -/
def translate_with_simpleen (remote : Except (List Char) (List Char)) :
    Except (List Char) (List Char) :=
  match remote with
  | Except.ok t => Except.ok t
  | Except.error e => Except.error ((("Simpleen API request failed: ").data) ++ e)

/-- Counterexample to C4 as stated: on a failed request the simpleen handler
raises past the handler boundary (modelled as `Except.error`) instead of
returning an empty result to its caller. -/
theorem simpleen_raises_cex :
    translate_with_simpleen (Except.error (("boom").data)) =
      Except.error ((("Simpleen API request failed: ").data) ++ ("boom").data) := rfl

/-- C4 (amended): when the remote call errors, the saia and deepl handlers
return the empty result and never raise; the simpleen handler instead
re-raises the failure to its caller. -/
theorem handlers_on_remote_error (e content html : List Char)
    (htmlToMd : List Char → List Char) :
    translate_with_saia content (Except.error e) = Except.ok [] ∧
    translate_with_deepl (Except.ok html) (Except.error e) htmlToMd = Except.ok [] ∧
    translate_with_deepl (Except.error e) (Except.ok html) htmlToMd = Except.ok [] ∧
    translate_with_simpleen (Except.error e) =
      Except.error ((("Simpleen API request failed: ").data) ++ e) :=
  ⟨rfl, rfl, rfl, rfl⟩
